import Mathlib

/-! Buffer (`src/buffer.cpp`): a shallow embedding.

The backing store `std::vector<char> buffer_` is a list of bytes, the two cursors
`readPos_` / `writePos_` are natural numbers holding `size_t` values, and every
`size_t` operation of the source is written with an explicit reduction modulo `2 ^ 64`.
Pointers into the store are offsets from `BeginPtr_()`.  A failed `assert` and an
access outside the store are explicit outcomes.
-/

namespace WebServer

/-- One `char` of the store. -/
abbrev Byte := UInt8

/-- Number of values of `size_t` on the 64-bit target. -/
abbrev SIZE_MOD : Nat := 2 ^ 64

/-- Largest size of a single object on the 64-bit target (`PTRDIFF_MAX`): the bound of
`std::vector<char>::max_size()` and of the length of any byte array handed to the buffer. -/
abbrev PTRDIFF_MAX : Nat := 2 ^ 63 - 1

/-- Addition of two `size_t` values. -/
def sizeAdd (a b : Nat) : Nat := (a + b) % SIZE_MOD

/-- Subtraction of two `size_t` values (wraps below zero). -/
def sizeSub (a b : Nat) : Nat := (a % SIZE_MOD + SIZE_MOD - b % SIZE_MOD) % SIZE_MOD

/-- What a call can end in: a normal return, an `assert` that fails (the program aborts),
or an access outside the object it addresses (undefined behaviour). -/
inductive Outcome (α : Type) where
  | ok (a : α)
  | assertFail
  | undefined
deriving DecidableEq, Repr

/-- Sequencing of two calls: the second runs only after a normal return of the first. -/
def Outcome.bind {α β : Type} (x : Outcome α) (f : α → Outcome β) : Outcome β :=
  match x with
  | .ok a => f a
  | .assertFail => .assertFail
  | .undefined => .undefined

/-- The members of `class Buffer`: `buffer_`, `readPos_`, `writePos_`. -/
structure Buffer where
  buffer_ : List Byte
  readPos_ : Nat
  writePos_ : Nat
deriving DecidableEq, Repr

/-- `Buffer::Buffer(int initBuffSize)`: a zero-initialised store, both cursors at 0. -/
def Buffer.init (initBuffSize : Nat) : Buffer :=
  { buffer_ := List.replicate initBuffSize 0, readPos_ := 0, writePos_ := 0 }

/-- `buffer_.size()`. -/
def Buffer.size (b : Buffer) : Nat := b.buffer_.length

/-- `Buffer::ReadableBytes`: `writePos_ - readPos_`. -/
def ReadableBytes (b : Buffer) : Nat := sizeSub b.writePos_ b.readPos_

/-- `Buffer::WritableBytes`: `buffer_.size() - writePos_`. -/
def WritableBytes (b : Buffer) : Nat := sizeSub b.size b.writePos_

/-- `Buffer::PrependableBytes`: `readPos_`. -/
def PrependableBytes (b : Buffer) : Nat := b.readPos_

/-- `Buffer::Peek`: `BeginPtr_() + readPos_`, as an offset into the store. -/
def Peek (b : Buffer) : Nat := b.readPos_

/-- `Buffer::BeginWrite`: `BeginPtr_() + writePos_`, as an offset into the store. -/
def BeginWrite (b : Buffer) : Nat := b.writePos_

/-- Reading `n` bytes of a store from offset `off` on. -/
def readRange (buf : List Byte) (off n : Nat) : Outcome (List Byte) :=
  if off + n ≤ buf.length then .ok ((buf.drop off).take n) else .undefined

/-- Writing the bytes `data` into a store from offset `off` on
(`std::copy` from a source outside the store, and the kernel filling `iov[0]`). -/
def writeRange (buf : List Byte) (off : Nat) (data : List Byte) : Outcome (List Byte) :=
  if off + data.length ≤ buf.length then
    .ok (buf.take off ++ data ++ buf.drop (off + data.length))
  else .undefined

/-- `std::copy(first, last, d_first)` inside one store: `n` elements are assigned one by one,
front to back, from offset `src` to offset `dst`. -/
def copyFwd (buf : List Byte) (src dst : Nat) : Nat → List Byte
  | 0 => buf
  | n + 1 => copyFwd (buf.set dst (buf.getD src 0)) (src + 1) (dst + 1) n

/-- `std::vector<char>::resize(n)`: keeps the first `n` elements and pads with zero bytes. -/
def resize (buf : List Byte) (n : Nat) : List Byte :=
  buf.take n ++ List.replicate (n - buf.length) 0

/-- `Buffer::Retrieve`. -/
def Retrieve (b : Buffer) (len : Nat) : Outcome Buffer :=
  if len ≤ ReadableBytes b then
    .ok { b with readPos_ := sizeAdd b.readPos_ len }
  else .assertFail

/-- `Buffer::RetrieveUntil`; the pointer `end` is the offset `end_` into the store. -/
def RetrieveUntil (b : Buffer) (end_ : Nat) : Outcome Buffer :=
  if Peek b ≤ end_ then Retrieve b (sizeSub end_ (Peek b)) else .assertFail

/-- `Buffer::RetrieveAll`: `bzero` over the whole store, both cursors to 0. -/
def RetrieveAll (b : Buffer) : Buffer :=
  { buffer_ := List.replicate b.size 0, readPos_ := 0, writePos_ := 0 }

/-- `Buffer::RetrieveAllToStr`: the string built from `Peek()` and `ReadableBytes()`,
and the buffer after `RetrieveAll`. -/
def RetrieveAllToStr (b : Buffer) : Outcome (List Byte × Buffer) :=
  (readRange b.buffer_ (Peek b) (ReadableBytes b)).bind fun str =>
    .ok (str, RetrieveAll b)

/-- `Buffer::HasWritten`. -/
def HasWritten (b : Buffer) (len : Nat) : Buffer :=
  { b with writePos_ := sizeAdd b.writePos_ len }

/-- `Buffer::MakeSpace_`. -/
def MakeSpace_ (b : Buffer) (len : Nat) : Outcome Buffer :=
  if sizeAdd (WritableBytes b) (PrependableBytes b) < len then
    .ok { b with buffer_ := resize b.buffer_ (sizeAdd (sizeAdd b.writePos_ len) 1) }
  else
    let readable := ReadableBytes b
    if b.readPos_ ≤ b.writePos_ ∧ b.writePos_ ≤ b.size then
      let b1 : Buffer :=
        { buffer_ := copyFwd b.buffer_ b.readPos_ 0 (b.writePos_ - b.readPos_),
          readPos_ := 0,
          writePos_ := sizeAdd 0 readable }
      if readable = ReadableBytes b1 then .ok b1 else .assertFail
    else .undefined

/-- `Buffer::EnsureWriteable`. -/
def EnsureWriteable (b : Buffer) (len : Nat) : Outcome Buffer :=
  (if WritableBytes b < len then MakeSpace_ b len else .ok b).bind fun b1 =>
    if WritableBytes b1 ≥ len then .ok b1 else .assertFail

/-- `Buffer::Append(const char* str, size_t len)`; the pointer `str` is `none` when null and
otherwise the bytes it points to, which lie outside the store. -/
def Append (b : Buffer) (str : Option (List Byte)) (len : Nat) : Outcome Buffer :=
  match str with
  | none => .assertFail
  | some src =>
    (EnsureWriteable b len).bind fun b1 =>
      (readRange src 0 len).bind fun bytes =>
        (writeRange b1.buffer_ (BeginWrite b1) bytes).bind fun buf =>
          .ok (HasWritten { b1 with buffer_ := buf } len)

/-- `Buffer::Append(const std::string& str)`. -/
def AppendStr (b : Buffer) (str : List Byte) : Outcome Buffer :=
  Append b (some str) str.length

/-- What `readv(fd, iov, 2)` did: it failed (return value -1, `errno` set),
or it delivered the given bytes. -/
inductive ReadvResult where
  | failed (errno : Int)
  | received (bytes : List Byte)
deriving DecidableEq, Repr

/-- What `write(fd, Peek(), readSize)` did: it failed (return value -1, `errno` set),
or the descriptor accepted `k` bytes. -/
inductive WriteResult where
  | failed (errno : Int)
  | accepted (k : Nat)
deriving DecidableEq, Repr

/-- What `ReadFd` / `WriteFd` leave behind: the return value, `*saveErrno`, the buffer. -/
structure IoReturn where
  ret : Int
  saveErrno : Int
  buf : Buffer
deriving DecidableEq, Repr

/-- `Buffer::ReadFd`. The kernel fills `iov[0]`, the writable tail, first and puts what is
left into `iov[1]`, the 65535-byte array `buff`. -/
def ReadFd (b : Buffer) (saveErrno : Int) (res : ReadvResult) : Outcome IoReturn :=
  let writable := WritableBytes b
  match res with
  | .failed errno => .ok { ret := -1, saveErrno := errno, buf := b }
  | .received bytes =>
    (writeRange b.buffer_ b.writePos_ (bytes.take writable)).bind fun store =>
      let b0 : Buffer := { b with buffer_ := store }
      let buff := bytes.drop writable
      let len := bytes.length
      if len ≤ writable then
        .ok { ret := len, saveErrno := saveErrno,
              buf := { b0 with writePos_ := sizeAdd b0.writePos_ len } }
      else
        (Append { b0 with writePos_ := b0.size % SIZE_MOD } (some buff)
            (sizeSub len writable)).bind fun b2 =>
          .ok { ret := len, saveErrno := saveErrno, buf := b2 }

/-- `Buffer::WriteFd`. -/
def WriteFd (b : Buffer) (saveErrno : Int) (res : WriteResult) : Outcome IoReturn :=
  match res with
  | .failed errno => .ok { ret := -1, saveErrno := errno, buf := b }
  | .accepted k =>
    .ok { ret := k, saveErrno := saveErrno,
          buf := { b with readPos_ := sizeAdd b.readPos_ k } }

/-- The cursor invariant `0 ≤ readPos_ ≤ writePos_ ≤ buffer_.size()`. -/
def Inv (b : Buffer) : Prop :=
  b.readPos_ ≤ b.writePos_ ∧ b.writePos_ ≤ b.size

/-- A valid buffer state: the cursor invariant holds and `buffer_.size()` is a `size_t`. -/
def Valid (b : Buffer) : Prop :=
  Inv b ∧ b.size < SIZE_MOD

/-- The readable zone `[readPos_, writePos_)`: the `ReadableBytes()` bytes at `Peek()`. -/
def readable (b : Buffer) : List Byte :=
  (b.buffer_.drop (Peek b)).take (ReadableBytes b)

/-- The state the compaction branch of `MakeSpace_` leaves on a valid state. -/
def compacted (b : Buffer) : Buffer :=
  { buffer_ := copyFwd b.buffer_ b.readPos_ 0 (b.writePos_ - b.readPos_),
    readPos_ := 0,
    writePos_ := b.writePos_ - b.readPos_ }

/-- The state the growth branch of `MakeSpace_` leaves when the store gets `n` bytes. -/
def grown (b : Buffer) (n : Nat) : Buffer :=
  { b with buffer_ := resize b.buffer_ n }

/-- The state after `data` was copied to the write cursor and the cursor moved behind it. -/
def written (b : Buffer) (data : List Byte) : Buffer :=
  { buffer_ := b.buffer_.take b.writePos_ ++ data ++ b.buffer_.drop (b.writePos_ + data.length),
    readPos_ := b.readPos_,
    writePos_ := b.writePos_ + data.length }

/-- `Buffer::Append(const Buffer& buff)` called with `buff` being the buffer itself:
`Append(Peek(), ReadableBytes())`.  The source pointer `str` is `BeginPtr_() + readPos_`,
taken before anything moves, and `capacity` is `buffer_.capacity()` at the call, which the
members do not record.  `str` is the null pointer when nothing has been allocated
(`capacity` 0) and `readPos_` is 0, and then `assert(str)` fails.  `resize` moves the
store exactly when the new size exceeds the capacity; `str` then points into the freed
block.  `std::copy` over `char` is one `memmove`: the `len` bytes at `str` are read as
`EnsureWriteable` left them and then stored at `BeginWrite()`. -/
def AppendSelf (b : Buffer) (capacity : Nat) : Outcome Buffer :=
  let str := Peek b
  let len := ReadableBytes b
  if capacity = 0 ∧ str = 0 then .assertFail
  else
    (EnsureWriteable b len).bind fun b1 =>
      if capacity < b1.size then .undefined
      else
        (readRange b1.buffer_ str len).bind fun bytes =>
          (writeRange b1.buffer_ (BeginWrite b1) bytes).bind fun buf =>
            .ok (HasWritten { b1 with buffer_ := buf } len)

instance (b : Buffer) : Decidable (Inv b) := by
  unfold Inv; infer_instance

instance (b : Buffer) : Decidable (Valid b) := by
  unfold Valid; infer_instance

/-! ## Arithmetic of `size_t` -/

theorem sizeAdd_eq {a b : Nat} (h : a + b < SIZE_MOD) : sizeAdd a b = a + b := by
  unfold sizeAdd
  exact Nat.mod_eq_of_lt h

theorem sizeSub_eq {a b : Nat} (h : b ≤ a) (ha : a < SIZE_MOD) : sizeSub a b = a - b := by
  unfold sizeSub
  simp only [SIZE_MOD] at *
  omega

theorem sizeAdd_lt (a b : Nat) : sizeAdd a b < SIZE_MOD := by
  unfold sizeAdd
  exact Nat.mod_lt _ (by decide)

theorem sizeSub_lt (a b : Nat) : sizeSub a b < SIZE_MOD := by
  unfold sizeSub
  exact Nat.mod_lt _ (by decide)

theorem ReadableBytes_eq {b : Buffer} (h : Valid b) :
    ReadableBytes b = b.writePos_ - b.readPos_ := by
  obtain ⟨⟨h1, h2⟩, h3⟩ := h
  unfold ReadableBytes
  exact sizeSub_eq h1 (by unfold Buffer.size at *; omega)

theorem WritableBytes_eq {b : Buffer} (h : Valid b) :
    WritableBytes b = b.buffer_.length - b.writePos_ := by
  obtain ⟨⟨_, h2⟩, h3⟩ := h
  unfold WritableBytes
  exact sizeSub_eq h2 h3

/-! ## The store: `resize`, `std::copy`, range accesses -/

theorem length_resize (buf : List Byte) (n : Nat) : (resize buf n).length = n := by
  unfold resize
  simp only [List.length_append, List.length_take, List.length_replicate]
  omega

theorem getElem?_resize_of_lt (buf : List Byte) (n i : Nat) (hi : i < buf.length)
    (hn : i < n) : (resize buf n)[i]? = buf[i]? := by
  unfold resize
  rw [List.getElem?_append_left (by simp only [List.length_take]; omega)]
  exact List.getElem?_take_of_lt hn

theorem take_resize (buf : List Byte) (n : Nat) (h : buf.length ≤ n) :
    (resize buf n).take buf.length = buf := by
  unfold resize
  rw [List.take_of_length_le h]
  exact List.take_left buf _

theorem length_copyFwd (n : Nat) : ∀ (buf : List Byte) (src dst : Nat),
    (copyFwd buf src dst n).length = buf.length := by
  induction n with
  | zero => intro buf src dst; rfl
  | succ n ih =>
    intro buf src dst
    simp only [copyFwd]
    rw [ih, List.length_set]

theorem getElem?_copyFwd (n : Nat) : ∀ (buf : List Byte) (src dst : Nat),
    dst ≤ src → src + n ≤ buf.length → ∀ i : Nat,
    (copyFwd buf src dst n)[i]? =
      if dst ≤ i ∧ i < dst + n then buf[i - dst + src]? else buf[i]? := by
  induction n with
  | zero =>
    intro buf src dst _ _ i
    have : ¬ (dst ≤ i ∧ i < dst + 0) := by omega
    simp only [copyFwd, this, if_false]
  | succ n ih =>
    intro buf src dst hds hlen i
    simp only [copyFwd]
    rw [ih _ _ _ (by omega) (by rw [List.length_set]; omega)]
    have hsrc : buf.getD src 0 = buf[src] := by
      rw [List.getD_eq_getElem?_getD, List.getElem?_eq_getElem (by omega)]
      rfl
    by_cases h1 : dst + 1 ≤ i ∧ i < dst + 1 + n
    · have h2 : dst ≤ i ∧ i < dst + (n + 1) := by omega
      rw [if_pos h1, if_pos h2, List.getElem?_set_ne (by omega)]
      congr 1
      omega
    · rw [if_neg h1]
      by_cases h3 : i = dst
      · subst h3
        have h2 : i ≤ i ∧ i < i + (n + 1) := by omega
        rw [if_pos h2, List.getElem?_set, if_pos rfl, if_pos (by omega), hsrc,
          List.getElem?_eq_getElem (by omega)]
        congr 2
        omega
      · have h2 : ¬ (dst ≤ i ∧ i < dst + (n + 1)) := by omega
        rw [if_neg h2, List.getElem?_set_ne (by omega)]

/-- Compaction keeps the bytes of the readable zone, now at the front of the store. -/
theorem take_copyFwd (buf : List Byte) (r w : Nat) (hrw : r ≤ w) (hw : w ≤ buf.length) :
    (copyFwd buf r 0 (w - r)).take (w - r) = (buf.drop r).take (w - r) := by
  apply List.ext_getElem?
  intro i
  rw [List.getElem?_take, List.getElem?_take]
  by_cases hi : i < w - r
  · rw [if_pos hi, if_pos hi, getElem?_copyFwd _ _ _ _ (by omega) (by omega),
      if_pos (by omega), List.getElem?_drop]
    congr 1
    omega
  · rw [if_neg hi, if_neg hi]

/-! ## `EnsureWriteable` on a valid state: the three cases -/

theorem Outcome.bind_ok {α β : Type} (a : α) (f : α → Outcome β) :
    (Outcome.ok a).bind f = f a := rfl

/-- Enough room in the tail: nothing moves. -/
theorem EnsureWriteable_of_le {b : Buffer} {len : Nat} (h : len ≤ WritableBytes b) :
    EnsureWriteable b len = .ok b := by
  unfold EnsureWriteable
  rw [if_neg (by omega), Outcome.bind_ok, if_pos h]

theorem compacted_length (b : Buffer) : (compacted b).buffer_.length = b.buffer_.length :=
  length_copyFwd _ _ _ _

theorem Valid_compacted {b : Buffer} (hv : Valid b) : Valid (compacted b) := by
  obtain ⟨⟨hrw, hws⟩, hs⟩ := hv
  unfold Buffer.size at hws hs
  refine ⟨⟨Nat.zero_le _, ?_⟩, ?_⟩
  · show b.writePos_ - b.readPos_ ≤ (compacted b).buffer_.length
    rw [compacted_length]; omega
  · show (compacted b).buffer_.length < SIZE_MOD
    rw [compacted_length]; exact hs

/-- Not enough room in the tail, enough with the consumed front: the readable zone is
copied to the front of the unchanged store. -/
theorem EnsureWriteable_compact {b : Buffer} {len : Nat} (hv : Valid b)
    (h1 : WritableBytes b < len) (h2 : len ≤ WritableBytes b + PrependableBytes b) :
    EnsureWriteable b len = .ok (compacted b) := by
  have hW := WritableBytes_eq hv
  have hR := ReadableBytes_eq hv
  have hR1 := ReadableBytes_eq (Valid_compacted hv)
  have hW1 := WritableBytes_eq (Valid_compacted hv)
  rw [compacted_length] at hW1
  obtain ⟨⟨hrw, hws⟩, hs⟩ := hv
  unfold Buffer.size at hws hs
  unfold PrependableBytes at h2
  have hsum : sizeAdd (WritableBytes b) (PrependableBytes b)
      = WritableBytes b + b.readPos_ := by
    unfold PrependableBytes
    exact sizeAdd_eq (by omega)
  have hw0 : sizeAdd 0 (ReadableBytes b) = b.writePos_ - b.readPos_ := by
    rw [hR]
    exact (sizeAdd_eq (by omega)).trans (Nat.zero_add _)
  have hR2 : ReadableBytes b = ReadableBytes (compacted b) := by
    rw [hR, hR1]
    show _ = b.writePos_ - b.readPos_ - 0
    omega
  have hW2 : len ≤ WritableBytes (compacted b) := by
    rw [hW1]
    show len ≤ b.buffer_.length - (b.writePos_ - b.readPos_)
    omega
  unfold EnsureWriteable MakeSpace_
  rw [if_pos h1, hsum, if_neg (by omega)]
  simp only [hw0]
  rw [if_pos ⟨hrw, hws⟩]
  show (if ReadableBytes b = ReadableBytes (compacted b) then Outcome.ok (compacted b)
    else Outcome.assertFail).bind _ = _
  rw [if_pos hR2, Outcome.bind_ok, if_pos hW2]

theorem Valid_grown {b : Buffer} {n : Nat} (hv : Valid b) (h1 : b.buffer_.length ≤ n)
    (h2 : n < SIZE_MOD) : Valid (grown b n) := by
  obtain ⟨⟨hrw, hws⟩, hs⟩ := hv
  unfold Buffer.size at hws hs
  refine ⟨⟨hrw, ?_⟩, ?_⟩
  · show b.writePos_ ≤ (resize b.buffer_ n).length
    rw [length_resize]; omega
  · show (resize b.buffer_ n).length < SIZE_MOD
    rw [length_resize]; exact h2

/-- Not enough room even with the consumed front: the store is resized to
`writePos_ + len + 1`, provided that sum is a `size_t`. -/
theorem EnsureWriteable_grow {b : Buffer} {len : Nat} (hv : Valid b)
    (h1 : WritableBytes b + PrependableBytes b < len)
    (h2 : b.writePos_ + len + 1 < SIZE_MOD) :
    EnsureWriteable b len = .ok (grown b (b.writePos_ + len + 1)) := by
  have hW := WritableBytes_eq hv
  obtain ⟨⟨hrw, hws⟩, hs⟩ := hv
  unfold Buffer.size at hws hs
  unfold PrependableBytes at h1
  have hsum : sizeAdd (WritableBytes b) (PrependableBytes b)
      = WritableBytes b + b.readPos_ := by
    unfold PrependableBytes
    exact sizeAdd_eq (by omega)
  have hnew : sizeAdd (sizeAdd b.writePos_ len) 1 = b.writePos_ + len + 1 := by
    rw [sizeAdd_eq (by omega : b.writePos_ + len < SIZE_MOD), sizeAdd_eq h2]
  have hW1 : WritableBytes (grown b (b.writePos_ + len + 1)) = len + 1 := by
    show sizeSub (resize b.buffer_ (b.writePos_ + len + 1)).length b.writePos_ = _
    rw [length_resize, sizeSub_eq (by omega) h2]
    omega
  unfold EnsureWriteable MakeSpace_
  rw [if_pos (by omega), hsum, if_pos h1, hnew, Outcome.bind_ok]
  show (if WritableBytes (grown b (b.writePos_ + len + 1)) ≥ len then _ else _) = _
  rw [hW1, if_pos (by omega)]
  rfl

theorem resize_of_le (buf : List Byte) (n : Nat) (h : buf.length ≤ n) :
    resize buf n = buf ++ List.replicate (n - buf.length) 0 := by
  unfold resize
  rw [List.take_of_length_le h]

theorem readable_eq {b : Buffer} (hv : Valid b) :
    readable b = (b.buffer_.drop b.readPos_).take (b.writePos_ - b.readPos_) := by
  unfold readable Peek
  rw [ReadableBytes_eq hv]

/-- Bytes of the readable zone do not depend on what is appended behind the store. -/
theorem take_drop_append (buf ext : List Byte) (r w : Nat) (hw : w ≤ buf.length) :
    ((buf ++ ext).drop r).take (w - r) = (buf.drop r).take (w - r) := by
  by_cases hr : r ≤ buf.length
  · rw [List.drop_append_of_le_length hr,
      List.take_append_of_le_length (by rw [List.length_drop]; omega)]
  · have h0 : w - r = 0 := by omega
    rw [h0, List.take_zero, List.take_zero]

theorem readable_compacted {b : Buffer} (hv : Valid b) :
    readable (compacted b) = readable b := by
  rw [readable_eq (Valid_compacted hv), readable_eq hv]
  show ((copyFwd _ _ _ _).drop 0).take (b.writePos_ - b.readPos_ - 0) = _
  rw [List.drop_zero, Nat.sub_zero]
  exact take_copyFwd _ _ _ hv.1.1 hv.1.2

theorem readable_grown {b : Buffer} {n : Nat} (hv : Valid b) (h1 : b.buffer_.length ≤ n)
    (h2 : n < SIZE_MOD) : readable (grown b n) = readable b := by
  rw [readable_eq (Valid_grown hv h1 h2), readable_eq hv]
  show ((resize b.buffer_ n).drop b.readPos_).take (b.writePos_ - b.readPos_) = _
  rw [resize_of_le _ _ h1]
  exact take_drop_append _ _ _ _ hv.1.2

/-- What `EnsureWriteable` guarantees on a valid state whose growth size is a `size_t`. -/
theorem EnsureWriteable_spec {b : Buffer} {len : Nat} (hv : Valid b)
    (hfit : WritableBytes b + PrependableBytes b < len → b.writePos_ + len + 1 < SIZE_MOD) :
    ∃ b1, EnsureWriteable b len = .ok b1 ∧ Valid b1 ∧ len ≤ WritableBytes b1 ∧
      readable b1 = readable b ∧ ReadableBytes b1 = ReadableBytes b ∧
      b.size ≤ b1.size := by
  have hW := WritableBytes_eq hv
  have hR := ReadableBytes_eq hv
  have hv0 := hv
  obtain ⟨⟨hrw, hws⟩, hs⟩ := hv
  unfold Buffer.size at hws hs
  by_cases h1 : len ≤ WritableBytes b
  · exact ⟨b, EnsureWriteable_of_le h1, hv0, h1, rfl, rfl, Nat.le_refl _⟩
  · by_cases h2 : len ≤ WritableBytes b + PrependableBytes b
    · have hv1 := Valid_compacted hv0
      refine ⟨_, EnsureWriteable_compact hv0 (by omega) h2, hv1, ?_, readable_compacted hv0,
        ?_, ?_⟩
      · rw [WritableBytes_eq hv1, compacted_length]
        show len ≤ b.buffer_.length - (b.writePos_ - b.readPos_)
        unfold PrependableBytes at h2
        omega
      · rw [ReadableBytes_eq hv1, hR]
        show b.writePos_ - b.readPos_ - 0 = _
        omega
      · show b.buffer_.length ≤ (compacted b).buffer_.length
        rw [compacted_length]
    · have h3 : WritableBytes b + PrependableBytes b < len := by omega
      have h4 := hfit h3
      have hge : b.buffer_.length ≤ b.writePos_ + len + 1 := by
        unfold PrependableBytes at h3
        omega
      have hv1 := Valid_grown hv0 hge h4
      refine ⟨_, EnsureWriteable_grow hv0 h3 h4, hv1, ?_, readable_grown hv0 hge h4, ?_, ?_⟩
      · rw [WritableBytes_eq hv1]
        show len ≤ (resize _ _).length - b.writePos_
        rw [length_resize]; omega
      · rw [ReadableBytes_eq hv1, hR]
        rfl
      · show b.buffer_.length ≤ (resize _ _).length
        rw [length_resize]; exact hge

/-! ## `Append` -/

/-- The readable zone after `data` has been written at the write cursor. -/
theorem take_drop_write (buf data : List Byte) (r w : Nat) (hrw : r ≤ w)
    (hw : w + data.length ≤ buf.length) :
    ((buf.take w ++ data ++ buf.drop (w + data.length)).drop r).take (w + data.length - r)
      = (buf.drop r).take (w - r) ++ data := by
  have hlen : (buf.take w).length = w := by rw [List.length_take]; omega
  rw [List.append_assoc, List.drop_append_of_le_length (by omega), List.drop_take,
    List.take_append_eq_append_take]
  have hl2 : (List.take (w - r) (List.drop r buf)).length = w - r := by
    rw [List.length_take, List.length_drop]; omega
  rw [hl2, List.take_of_length_le (by omega : (List.take (w - r) (List.drop r buf)).length
      ≤ w + data.length - r)]
  have h3 : w + data.length - r - (w - r) = data.length := by omega
  rw [h3, List.take_append_of_le_length (Nat.le_refl _), List.take_length]

theorem written_length {b : Buffer} {data : List Byte}
    (h : b.writePos_ + data.length ≤ b.buffer_.length) :
    (written b data).buffer_.length = b.buffer_.length := by
  show (b.buffer_.take b.writePos_ ++ data
    ++ b.buffer_.drop (b.writePos_ + data.length)).length = _
  simp only [List.length_append, List.length_take, List.length_drop]
  omega

theorem Valid_written {b : Buffer} {data : List Byte} (hv : Valid b)
    (h : b.writePos_ + data.length ≤ b.buffer_.length) : Valid (written b data) := by
  obtain ⟨⟨hrw, hws⟩, hs⟩ := hv
  unfold Buffer.size at hws hs
  refine ⟨⟨?_, ?_⟩, ?_⟩
  · show b.readPos_ ≤ b.writePos_ + data.length
    omega
  · show b.writePos_ + data.length ≤ (written b data).buffer_.length
    rw [written_length h]; exact h
  · show (written b data).buffer_.length < SIZE_MOD
    rw [written_length h]; exact hs

theorem readable_written {b : Buffer} {data : List Byte} (hv : Valid b)
    (h : b.writePos_ + data.length ≤ b.buffer_.length) :
    readable (written b data) = readable b ++ data := by
  rw [readable_eq (Valid_written hv h), readable_eq hv]
  exact take_drop_write _ _ _ _ hv.1.1 h

/-- The copy and the cursor move of `Append`, after `EnsureWriteable` has made room. -/
theorem Append_eq {b b1 : Buffer} {B : List Byte}
    (he : EnsureWriteable b B.length = .ok b1) (hv1 : Valid b1)
    (hroom : B.length ≤ WritableBytes b1) :
    Append b (some B) B.length = .ok (written b1 B) := by
  rw [WritableBytes_eq hv1] at hroom
  obtain ⟨⟨hrw, hws⟩, hs⟩ := hv1
  unfold Buffer.size at hws hs
  have hread : readRange B 0 B.length = .ok B := by
    unfold readRange
    rw [if_pos (by omega), List.drop_zero, List.take_length]
  have hwrite : writeRange b1.buffer_ (BeginWrite b1) B = .ok
      (b1.buffer_.take b1.writePos_ ++ B ++ b1.buffer_.drop (b1.writePos_ + B.length)) := by
    unfold writeRange BeginWrite
    rw [if_pos (by omega)]
  unfold Append
  simp only [he, Outcome.bind_ok, hread, hwrite, HasWritten]
  rw [sizeAdd_eq (by omega)]
  rfl

/-- `Append` of a source of `len(B)` bytes on a valid state whose growth size is a
`size_t`: it returns, keeps the state valid, and puts `B` behind the readable bytes. -/
theorem Append_spec {b : Buffer} {B : List Byte} (hv : Valid b)
    (hfit : WritableBytes b + PrependableBytes b < B.length →
      b.writePos_ + B.length + 1 < SIZE_MOD) :
    ∃ b2, Append b (some B) B.length = .ok b2 ∧ Valid b2 ∧
      readable b2 = readable b ++ B ∧
      ReadableBytes b2 = ReadableBytes b + B.length ∧
      b.size ≤ b2.size := by
  obtain ⟨b1, he, hv1, hroom, hrd, hR, hsz⟩ := EnsureWriteable_spec hv hfit
  have hroom1 := hroom
  rw [WritableBytes_eq hv1] at hroom1
  have hR1 := ReadableBytes_eq hv1
  have hfits : b1.writePos_ + B.length ≤ b1.buffer_.length := by
    have := hv1.1.2
    unfold Buffer.size at this
    omega
  have hv2 := Valid_written hv1 hfits
  refine ⟨_, Append_eq he hv1 hroom, hv2, ?_, ?_, ?_⟩
  · rw [readable_written hv1 hfits, hrd]
  · rw [ReadableBytes_eq hv2, ← hR, hR1]
    show b1.writePos_ + B.length - b1.readPos_ = _
    have := hv1.1.1
    omega
  · show b.buffer_.length ≤ (written b1 B).buffer_.length
    rw [written_length hfits]; exact hsz

/-! ## Consumption -/

theorem readable_nil_of_zero {b : Buffer} (h : ReadableBytes b = 0) : readable b = [] := by
  unfold readable
  rw [h, List.take_zero]

theorem length_readable {b : Buffer} (hv : Valid b) :
    (readable b).length = ReadableBytes b := by
  rw [readable_eq hv, ReadableBytes_eq hv, List.length_take, List.length_drop]
  have := hv.1.2
  unfold Buffer.size at this
  omega

/-- `Retrieve` within the readable zone, on a valid state. -/
theorem Retrieve_of_le {b : Buffer} {n : Nat} (hv : Valid b) (h : n ≤ ReadableBytes b) :
    Retrieve b n = .ok { b with readPos_ := b.readPos_ + n } := by
  have hR := ReadableBytes_eq hv
  obtain ⟨⟨hrw, hws⟩, hs⟩ := hv
  unfold Buffer.size at hws hs
  unfold Retrieve
  rw [if_pos h, sizeAdd_eq (by omega)]

theorem readable_advance {b : Buffer} {k : Nat} (hv : Valid b) (h : k ≤ ReadableBytes b) :
    Valid { b with readPos_ := b.readPos_ + k } ∧
    readable { b with readPos_ := b.readPos_ + k } = (readable b).drop k := by
  have hR := ReadableBytes_eq hv
  have hv1 : Valid { b with readPos_ := b.readPos_ + k } := by
    refine ⟨⟨?_, hv.1.2⟩, hv.2⟩
    show b.readPos_ + k ≤ b.writePos_
    have := hv.1.1
    omega
  refine ⟨hv1, ?_⟩
  rw [readable_eq hv1, readable_eq hv]
  show (b.buffer_.drop (b.readPos_ + k)).take (b.writePos_ - (b.readPos_ + k)) = _
  rw [List.drop_take, List.drop_drop, Nat.sub_add_eq]

/-! ## Descriptor I/O -/

/-- `WriteFd` when the descriptor accepts `k` bytes of the readable zone. -/
theorem WriteFd_accepted {b : Buffer} {k : Nat} (s : Int) (hv : Valid b)
    (h : k ≤ ReadableBytes b) :
    WriteFd b s (.accepted k)
      = .ok { ret := k, saveErrno := s, buf := { b with readPos_ := b.readPos_ + k } } := by
  have hR := ReadableBytes_eq hv
  obtain ⟨⟨hrw, hws⟩, hs⟩ := hv
  unfold Buffer.size at hws hs
  unfold WriteFd
  simp only []
  rw [sizeAdd_eq (by omega)]

/-- `ReadFd` when everything delivered fits into the writable tail. -/
theorem ReadFd_fits {b : Buffer} {D : List Byte} (s : Int) (hv : Valid b)
    (h : D.length ≤ WritableBytes b) :
    ReadFd b s (.received D) = .ok { ret := D.length, saveErrno := s, buf := written b D } := by
  have hW := WritableBytes_eq hv
  obtain ⟨⟨hrw, hws⟩, hs⟩ := hv
  unfold Buffer.size at hws hs
  have hwrite : writeRange b.buffer_ b.writePos_ D = .ok
      (b.buffer_.take b.writePos_ ++ D ++ b.buffer_.drop (b.writePos_ + D.length)) := by
    unfold writeRange
    rw [if_pos (by omega)]
  unfold ReadFd
  simp only [List.take_of_length_le h, hwrite, Outcome.bind_ok, if_pos h]
  rw [sizeAdd_eq (by omega)]
  rfl

/-- `ReadFd` when more is delivered than the writable tail holds: the tail is filled,
`writePos_` goes to the end of the store and the rest is appended from `buff`. -/
theorem ReadFd_oversized {b : Buffer} {D : List Byte} (s : Int) (hv : Valid b)
    (h : WritableBytes b < D.length) (hD : D.length < SIZE_MOD) :
    ReadFd b s (.received D)
      = (Append (written b (D.take (WritableBytes b))) (some (D.drop (WritableBytes b)))
          (D.drop (WritableBytes b)).length).bind fun b2 =>
            .ok { ret := D.length, saveErrno := s, buf := b2 } := by
  have hW := WritableBytes_eq hv
  obtain ⟨⟨hrw, hws⟩, hs⟩ := hv
  unfold Buffer.size at hws hs
  have hlt : (D.take (WritableBytes b)).length = WritableBytes b := by
    rw [List.length_take]; omega
  have hwrite : writeRange b.buffer_ b.writePos_ (D.take (WritableBytes b)) = .ok
      (written b (D.take (WritableBytes b))).buffer_ := by
    unfold writeRange
    rw [if_pos (by omega)]
    rfl
  have hlen : (written b (D.take (WritableBytes b))).buffer_.length = b.buffer_.length :=
    written_length (by omega)
  have hsub : sizeSub D.length (WritableBytes b) = (D.drop (WritableBytes b)).length := by
    rw [List.length_drop]
    unfold sizeSub
    simp only [SIZE_MOD] at *
    omega
  unfold ReadFd
  simp only [hwrite, Outcome.bind_ok, if_neg (by omega : ¬ D.length ≤ WritableBytes b), hsub]
  congr 2
  have hwp : b.buffer_.length % SIZE_MOD
      = b.writePos_ + (D.take (WritableBytes b)).length := by
    rw [hlt, Nat.mod_eq_of_lt hs]
    omega
  show (⟨(written b (D.take (WritableBytes b))).buffer_, b.readPos_,
      (written b (D.take (WritableBytes b))).buffer_.length % SIZE_MOD⟩ : Buffer)
    = ⟨(written b (D.take (WritableBytes b))).buffer_, b.readPos_,
      b.writePos_ + (D.take (WritableBytes b)).length⟩
  rw [hlen, hwp]

/-! ## The two branches of `MakeSpace_`, and `Append` through the growth branch -/

theorem sum_free_eq {b : Buffer} (hv : Valid b) :
    sizeAdd (WritableBytes b) (PrependableBytes b) = WritableBytes b + PrependableBytes b ∧
    WritableBytes b + PrependableBytes b ≤ b.size := by
  have hW := WritableBytes_eq hv
  obtain ⟨⟨hrw, hws⟩, hs⟩ := hv
  unfold Buffer.size at *
  unfold PrependableBytes
  exact ⟨sizeAdd_eq (by omega), by omega⟩

theorem MakeSpace_compact {b : Buffer} {len : Nat} (hv : Valid b)
    (h : len ≤ WritableBytes b + PrependableBytes b) :
    MakeSpace_ b len = .ok (compacted b) := by
  have hR := ReadableBytes_eq hv
  have hR1 := ReadableBytes_eq (Valid_compacted hv)
  have hsum := (sum_free_eq hv).1
  obtain ⟨⟨hrw, hws⟩, hs⟩ := hv
  unfold Buffer.size at hws hs
  have hw0 : sizeAdd 0 (ReadableBytes b) = b.writePos_ - b.readPos_ := by
    rw [hR]
    exact (sizeAdd_eq (by omega)).trans (Nat.zero_add _)
  have hR2 : ReadableBytes b = ReadableBytes (compacted b) := by
    rw [hR, hR1]
    show _ = b.writePos_ - b.readPos_ - 0
    omega
  unfold MakeSpace_
  rw [hsum, if_neg (by omega)]
  simp only [hw0]
  rw [if_pos ⟨hrw, hws⟩]
  show (if ReadableBytes b = ReadableBytes (compacted b) then Outcome.ok (compacted b)
    else Outcome.assertFail) = _
  rw [if_pos hR2]

theorem MakeSpace_grow {b : Buffer} {len : Nat} (hv : Valid b)
    (h : WritableBytes b + PrependableBytes b < len) :
    MakeSpace_ b len = .ok (grown b (sizeAdd (sizeAdd b.writePos_ len) 1)) := by
  unfold MakeSpace_
  rw [(sum_free_eq hv).1, if_pos h]
  rfl

theorem Append_grow {b : Buffer} {B : List Byte} (hv : Valid b)
    (h1 : WritableBytes b + PrependableBytes b < B.length)
    (h2 : b.writePos_ + B.length + 1 < SIZE_MOD) :
    Append b (some B) B.length = .ok (written (grown b (b.writePos_ + B.length + 1)) B) ∧
    Valid (written (grown b (b.writePos_ + B.length + 1)) B) ∧
    (written (grown b (b.writePos_ + B.length + 1)) B).size = b.writePos_ + B.length + 1 := by
  have hW := WritableBytes_eq hv
  have hws := hv.1.2
  unfold Buffer.size at hws
  have hge : b.buffer_.length ≤ b.writePos_ + B.length + 1 := by
    unfold PrependableBytes at h1
    omega
  have hv1 := Valid_grown hv hge h2
  have hlen1 : (grown b (b.writePos_ + B.length + 1)).buffer_.length
      = b.writePos_ + B.length + 1 := length_resize _ _
  have hfits : (grown b (b.writePos_ + B.length + 1)).writePos_ + B.length
      ≤ (grown b (b.writePos_ + B.length + 1)).buffer_.length := by
    rw [hlen1]
    show b.writePos_ + B.length ≤ _
    omega
  have hroom : B.length ≤ WritableBytes (grown b (b.writePos_ + B.length + 1)) := by
    rw [WritableBytes_eq hv1, hlen1]
    show B.length ≤ b.writePos_ + B.length + 1 - b.writePos_
    omega
  refine ⟨Append_eq (EnsureWriteable_grow hv h1 h2) hv1 hroom, Valid_written hv1 hfits, ?_⟩
  show (written (grown b (b.writePos_ + B.length + 1)) B).buffer_.length = _
  rw [written_length hfits, hlen1]

/-- Only the first `len` bytes behind the source pointer matter to `Append`. -/
theorem Append_take (b : Buffer) (src : List Byte) (len : Nat) (h : len ≤ src.length) :
    Append b (some src) len = Append b (some (src.take len)) (src.take len).length := by
  have hl : (src.take len).length = len := by rw [List.length_take]; omega
  have h1 : readRange src 0 len = .ok (src.take len) := by
    unfold readRange
    rw [if_pos (by omega), List.drop_zero]
  have h2 : readRange (src.take len) 0 len = .ok (src.take len) := by
    unfold readRange
    rw [if_pos (by omega), List.drop_zero, List.take_take, Nat.min_self]
  unfold Append
  simp only [hl, h1, h2]

/-! ## `Append` of the buffer to itself -/

/-- The bytes of a range of the store, one by one. -/
theorem getElem?_take_drop (buf : List Byte) (r n i : Nat) :
    ((buf.drop r).take n)[i]? = if i < n then buf[r + i]? else none := by
  rw [List.getElem?_take, List.getElem?_drop]

/-- The copy and the cursor move of `AppendSelf`, after `EnsureWriteable` has made room
without moving the store: the bytes then found at the old `Peek()` are appended. -/
theorem AppendSelf_eq {b b1 : Buffer} (capacity : Nat)
    (hnn : ¬ (capacity = 0 ∧ Peek b = 0))
    (he : EnsureWriteable b (ReadableBytes b) = .ok b1) (hcap : b1.size ≤ capacity)
    (hv1 : Valid b1) (hsrc : Peek b + ReadableBytes b ≤ b1.buffer_.length)
    (hroom : ReadableBytes b ≤ WritableBytes b1) :
    AppendSelf b capacity
      = .ok (written b1 ((b1.buffer_.drop (Peek b)).take (ReadableBytes b))) ∧
    Valid (written b1 ((b1.buffer_.drop (Peek b)).take (ReadableBytes b))) ∧
    readable (written b1 ((b1.buffer_.drop (Peek b)).take (ReadableBytes b)))
      = readable b1 ++ (b1.buffer_.drop (Peek b)).take (ReadableBytes b) := by
  have hl : ((b1.buffer_.drop (Peek b)).take (ReadableBytes b)).length = ReadableBytes b := by
    rw [List.length_take, List.length_drop]; omega
  rw [WritableBytes_eq hv1] at hroom
  have hws := hv1.1.2
  have hs := hv1.2
  unfold Buffer.size at hws hs
  have hfits : b1.writePos_ + ((b1.buffer_.drop (Peek b)).take (ReadableBytes b)).length
      ≤ b1.buffer_.length := by
    rw [hl]; omega
  refine ⟨?_, Valid_written hv1 hfits, readable_written hv1 hfits⟩
  have hread : readRange b1.buffer_ (Peek b) (ReadableBytes b)
      = .ok ((b1.buffer_.drop (Peek b)).take (ReadableBytes b)) := by
    unfold readRange
    rw [if_pos hsrc]
  have hwrite : writeRange b1.buffer_ (BeginWrite b1)
      ((b1.buffer_.drop (Peek b)).take (ReadableBytes b))
      = .ok (written b1 ((b1.buffer_.drop (Peek b)).take (ReadableBytes b))).buffer_ := by
    unfold writeRange BeginWrite
    rw [if_pos hfits]
    rfl
  have hwp : sizeAdd b1.writePos_ (ReadableBytes b)
      = b1.writePos_ + ((b1.buffer_.drop (Peek b)).take (ReadableBytes b)).length := by
    rw [hl]
    exact sizeAdd_eq (by omega)
  unfold AppendSelf
  simp only [if_neg hnn, he, Outcome.bind_ok, if_neg (Nat.not_lt.mpr hcap), hread, hwrite,
    HasWritten, hwp]
  rfl

/-- What the source pointer of a self-append sees after a compaction: the readable bytes
from the `readPos_`-th on, followed by the last `readPos_` readable bytes (all of them
when there are no more than `readPos_`). -/
theorem view_compacted {b : Buffer} (hv : Valid b) :
    ((compacted b).buffer_.drop b.readPos_).take (ReadableBytes b)
      = (readable b).drop b.readPos_
        ++ (readable b).drop (ReadableBytes b - b.readPos_) := by
  have hR := ReadableBytes_eq hv
  have hrd := readable_eq hv
  obtain ⟨⟨hrw, hws⟩, hsl⟩ := hv
  unfold Buffer.size at hws hsl
  have hcb : ∀ j, (compacted b).buffer_[j]? =
      if 0 ≤ j ∧ j < 0 + (b.writePos_ - b.readPos_) then b.buffer_[j - 0 + b.readPos_]?
      else b.buffer_[j]? :=
    getElem?_copyFwd _ _ _ _ (Nat.zero_le _) (by omega)
  have hl : ((b.buffer_.drop b.readPos_).take (b.writePos_ - b.readPos_)).length
      = b.writePos_ - b.readPos_ := by
    rw [List.length_take, List.length_drop]; omega
  rw [hrd, hR]
  apply List.ext_getElem?
  intro j
  rw [getElem?_take_drop, List.getElem?_append, List.length_drop, hl, List.getElem?_drop,
    List.getElem?_drop, getElem?_take_drop, getElem?_take_drop, hcb]
  by_cases hj : j < b.writePos_ - b.readPos_
  · rw [if_pos hj]
    by_cases hj2 : b.readPos_ + j < b.writePos_ - b.readPos_
    · rw [if_pos (by omega), if_pos (by omega), if_pos hj2]
      congr 1
      omega
    · rw [if_neg (by omega), if_neg (by omega), if_pos (by omega)]
      congr 1
      omega
  · rw [if_neg hj, if_neg (by omega), if_neg (by omega)]

/-! ## The claims -/

/-- C1 (refuted on the code): the cursor invariant does not survive every call of
`EnsureWriteable`. On the valid state reached from a fresh buffer of capacity 10 by appending
five bytes, `EnsureWriteable(2^64 - 3)` computes the new size `5 + (2^64 - 3) + 1` modulo
`2^64`, which is 3; the store is cut to 3 bytes, the final `assert` passes because
`WritableBytes()` wraps as well, and the call returns with `writePos_ = 5` beyond the store. -/
theorem C1_invariant_lost_by_EnsureWriteable :
    Append (Buffer.init 10) (some [104, 101, 108, 108, 111]) 5
      = .ok ⟨[104, 101, 108, 108, 111, 0, 0, 0, 0, 0], 0, 5⟩ ∧
    Valid ⟨[104, 101, 108, 108, 111, 0, 0, 0, 0, 0], 0, 5⟩ ∧
    EnsureWriteable ⟨[104, 101, 108, 108, 111, 0, 0, 0, 0, 0], 0, 5⟩ (2 ^ 64 - 3)
      = .ok ⟨[104, 101, 108], 0, 5⟩ ∧
    ¬ Inv ⟨[104, 101, 108], 0, 5⟩ := by
  decide

/-- C2: on a valid state, `Append` of a byte sequence `B` from outside the buffer returns,
the readable bytes afterwards are the old readable bytes followed by `B`, and
`ReadableBytes()` has grown by `len(B)`; no case distinction on how room was made.
The store and `B` are objects of the program, so neither is longer than `PTRDIFF_MAX`. -/
theorem C2_Append_fifo (b : Buffer) (B : List Byte) (hv : Valid b)
    (hb : b.size ≤ PTRDIFF_MAX) (hB : B.length ≤ PTRDIFF_MAX) :
    ∃ b2, Append b (some B) B.length = .ok b2 ∧
      readable b2 = readable b ++ B ∧
      ReadableBytes b2 = ReadableBytes b + B.length := by
  have hfit : WritableBytes b + PrependableBytes b < B.length →
      b.writePos_ + B.length + 1 < SIZE_MOD := by
    intro _
    have := hv.1.2
    simp only [SIZE_MOD, PTRDIFF_MAX] at *
    omega
  obtain ⟨b2, h1, _, h3, h4, _⟩ := Append_spec hv hfit
  exact ⟨b2, h1, h3, h4⟩

/-- C2 at a growing append: capacity 4, one byte readable, eight bytes appended. -/
theorem C2_Append_fifo_witness :
    Valid ⟨[7, 9, 0, 0], 1, 2⟩ ∧
    (⟨[7, 9, 0, 0], 1, 2⟩ : Buffer).size ≤ PTRDIFF_MAX ∧
    ([1, 2, 3, 4, 5, 6, 7, 8] : List Byte).length ≤ PTRDIFF_MAX ∧
    ∃ b2, Append ⟨[7, 9, 0, 0], 1, 2⟩ (some [1, 2, 3, 4, 5, 6, 7, 8]) 8 = .ok b2 ∧
      readable b2 = readable ⟨[7, 9, 0, 0], 1, 2⟩ ++ [1, 2, 3, 4, 5, 6, 7, 8] ∧
      ReadableBytes b2 = ReadableBytes ⟨[7, 9, 0, 0], 1, 2⟩ + 8 :=
  ⟨by decide, by decide, by decide,
    C2_Append_fifo ⟨[7, 9, 0, 0], 1, 2⟩ [1, 2, 3, 4, 5, 6, 7, 8]
      (by decide) (by decide) (by decide)⟩

/-- C3: on a valid state with an empty readable zone, after `Append` of `B` the `len(B)`
bytes at `Peek()` are `B`, `Retrieve(len(B))` passes its `assert`, and `ReadableBytes()`
is 0 afterwards; no case distinction on how room was made. -/
theorem C3_Append_Retrieve_roundtrip (b : Buffer) (B : List Byte) (hv : Valid b)
    (hempty : ReadableBytes b = 0)
    (hb : b.size ≤ PTRDIFF_MAX) (hB : B.length ≤ PTRDIFF_MAX) :
    ∃ b2, Append b (some B) B.length = .ok b2 ∧
      readRange b2.buffer_ (Peek b2) B.length = .ok B ∧
      B.length ≤ ReadableBytes b2 ∧
      ∃ b3, Retrieve b2 B.length = .ok b3 ∧ ReadableBytes b3 = 0 := by
  have hfit : WritableBytes b + PrependableBytes b < B.length →
      b.writePos_ + B.length + 1 < SIZE_MOD := by
    intro _
    have := hv.1.2
    simp only [SIZE_MOD, PTRDIFF_MAX] at *
    omega
  obtain ⟨b2, h1, hv2, h3, h4, _⟩ := Append_spec hv hfit
  rw [readable_nil_of_zero hempty, List.nil_append] at h3
  rw [hempty, Nat.zero_add] at h4
  have hR2 := ReadableBytes_eq hv2
  have hrw := hv2.1.1
  have hws := hv2.1.2
  have hs := hv2.2
  unfold Buffer.size at hws hs
  refine ⟨b2, h1, ?_, by omega, _, Retrieve_of_le hv2 (by omega), ?_⟩
  · unfold readRange Peek
    rw [if_pos (by omega)]
    unfold readable Peek at h3
    rw [h4] at h3
    rw [h3]
  · show sizeSub b2.writePos_ (b2.readPos_ + B.length) = 0
    rw [sizeSub_eq (by omega) (by omega)]
    omega

/-- C3 at a compacting append: capacity 4, both cursors at 3, three bytes appended. -/
theorem C3_Append_Retrieve_roundtrip_witness :
    Valid ⟨[1, 2, 3, 4], 3, 3⟩ ∧
    ReadableBytes ⟨[1, 2, 3, 4], 3, 3⟩ = 0 ∧
    (⟨[1, 2, 3, 4], 3, 3⟩ : Buffer).size ≤ PTRDIFF_MAX ∧
    ([10, 20, 30] : List Byte).length ≤ PTRDIFF_MAX ∧
    ∃ b2, Append ⟨[1, 2, 3, 4], 3, 3⟩ (some [10, 20, 30]) 3 = .ok b2 ∧
      readRange b2.buffer_ (Peek b2) 3 = .ok [10, 20, 30] ∧
      3 ≤ ReadableBytes b2 ∧
      ∃ b3, Retrieve b2 3 = .ok b3 ∧ ReadableBytes b3 = 0 :=
  ⟨by decide, by decide, by decide, by decide,
    C3_Append_Retrieve_roundtrip ⟨[1, 2, 3, 4], 3, 3⟩ [10, 20, 30]
      (by decide) (by decide) (by decide) (by decide)⟩

/-- C4 (refuted on the code): the final `assert(WritableBytes() >= len)` of
`EnsureWriteable` fails for `len = 2^64 - 1` on a fresh buffer of capacity 8: the new size
`0 + (2^64 - 1) + 1` is 0 modulo `2^64`, the store is emptied and `WritableBytes()` is 0. -/
theorem C4_EnsureWriteable_assert_fails :
    Valid (Buffer.init 8) ∧
    MakeSpace_ (Buffer.init 8) (2 ^ 64 - 1) = .ok ⟨[], 0, 0⟩ ∧
    WritableBytes ⟨[], 0, 0⟩ = 0 ∧
    EnsureWriteable (Buffer.init 8) (2 ^ 64 - 1) = .assertFail := by
  decide

/-- C5 as stated fails: with one byte consumed, one readable and two bytes of tail room,
`EnsureWriteable(1)` finds `WritableBytes() >= 1`, never calls `MakeSpace_`, and leaves the
read cursor at 1 although `1 <= WritableBytes() + PrependableBytes()`. -/
theorem C5_no_shift_when_tail_suffices :
    Valid ⟨[1, 2, 3, 4], 1, 2⟩ ∧
    0 < (⟨[1, 2, 3, 4], 1, 2⟩ : Buffer).readPos_ ∧
    1 ≤ WritableBytes ⟨[1, 2, 3, 4], 1, 2⟩ + PrependableBytes ⟨[1, 2, 3, 4], 1, 2⟩ ∧
    EnsureWriteable ⟨[1, 2, 3, 4], 1, 2⟩ 1 = .ok ⟨[1, 2, 3, 4], 1, 2⟩ ∧
    ¬ ∃ b1, EnsureWriteable ⟨[1, 2, 3, 4], 1, 2⟩ 1 = .ok b1 ∧ b1.readPos_ = 0 := by
  refine ⟨by decide, by decide, by decide, by decide, ?_⟩
  rintro ⟨b1, h1, h2⟩
  have h3 : EnsureWriteable ⟨[1, 2, 3, 4], 1, 2⟩ 1 = .ok ⟨[1, 2, 3, 4], 1, 2⟩ := by decide
  rw [h3] at h1
  injection h1 with h1
  subst h1
  exact absurd h2 (by decide)

/-- C5 (amended): on a valid state with `readPos_ = k > 0` and
`n <= WritableBytes() + PrependableBytes()`, `EnsureWriteable(n)` returns, the store keeps
its length and the readable bytes are the same; when `WritableBytes() < n` they now start
at offset 0 (`readPos_ = 0`, `writePos_` = the old `ReadableBytes()`), and when
`n <= WritableBytes()` the state is left as it was. -/
theorem C5_EnsureWriteable_compaction (b : Buffer) (n : Nat) (hv : Valid b)
    (hk : 0 < b.readPos_) (hn : n ≤ WritableBytes b + PrependableBytes b) :
    ∃ b1, EnsureWriteable b n = .ok b1 ∧
      b1.size = b.size ∧
      readable b1 = readable b ∧
      (WritableBytes b < n →
        b1.readPos_ = 0 ∧ b1.writePos_ = ReadableBytes b ∧
        b1.buffer_.take (ReadableBytes b) = readable b) ∧
      (n ≤ WritableBytes b → b1 = b) := by
  have _ := hk
  by_cases h1 : n ≤ WritableBytes b
  · exact ⟨b, EnsureWriteable_of_le h1, rfl, rfl, fun h => absurd h (by omega), fun _ => rfl⟩
  · refine ⟨compacted b, EnsureWriteable_compact hv (by omega) hn, compacted_length b,
      readable_compacted hv, fun _ => ⟨rfl, ?_, ?_⟩, fun h => absurd h h1⟩
    · rw [ReadableBytes_eq hv]
      rfl
    · rw [readable_eq hv, ReadableBytes_eq hv]
      exact take_copyFwd _ _ _ hv.1.1 hv.1.2

/-- C5 (amended) at a compaction whose source and destination overlap. -/
theorem C5_EnsureWriteable_compaction_witness :
    Valid ⟨[1, 2, 3, 4, 5, 6], 1, 5⟩ ∧
    0 < (⟨[1, 2, 3, 4, 5, 6], 1, 5⟩ : Buffer).readPos_ ∧
    2 ≤ WritableBytes ⟨[1, 2, 3, 4, 5, 6], 1, 5⟩
      + PrependableBytes ⟨[1, 2, 3, 4, 5, 6], 1, 5⟩ ∧
    ∃ b1, EnsureWriteable ⟨[1, 2, 3, 4, 5, 6], 1, 5⟩ 2 = .ok b1 ∧
      b1.size = (⟨[1, 2, 3, 4, 5, 6], 1, 5⟩ : Buffer).size ∧
      readable b1 = readable ⟨[1, 2, 3, 4, 5, 6], 1, 5⟩ ∧
      (WritableBytes ⟨[1, 2, 3, 4, 5, 6], 1, 5⟩ < 2 →
        b1.readPos_ = 0 ∧ b1.writePos_ = ReadableBytes ⟨[1, 2, 3, 4, 5, 6], 1, 5⟩ ∧
        b1.buffer_.take (ReadableBytes ⟨[1, 2, 3, 4, 5, 6], 1, 5⟩)
          = readable ⟨[1, 2, 3, 4, 5, 6], 1, 5⟩) ∧
      (2 ≤ WritableBytes ⟨[1, 2, 3, 4, 5, 6], 1, 5⟩ → b1 = ⟨[1, 2, 3, 4, 5, 6], 1, 5⟩) :=
  ⟨by decide, by decide, by decide,
    C5_EnsureWriteable_compaction ⟨[1, 2, 3, 4, 5, 6], 1, 5⟩ 2
      (by decide) (by decide) (by decide)⟩

/-- C6 (refuted on the code): on the valid state with store `[1,2,3,4,5,6]`, `readPos_ = 2`,
`writePos_ = 6`, the request `n = 2^64 - 4` exceeds `WritableBytes() + PrependableBytes()`;
`EnsureWriteable(n)` returns with a store of 3 bytes instead of `6 + n + 1`, and the
readable bytes at offsets 3, 4, 5 are gone. -/
theorem C6_growth_wraps :
    Valid ⟨[1, 2, 3, 4, 5, 6], 2, 6⟩ ∧
    WritableBytes ⟨[1, 2, 3, 4, 5, 6], 2, 6⟩ + PrependableBytes ⟨[1, 2, 3, 4, 5, 6], 2, 6⟩
      < 2 ^ 64 - 4 ∧
    EnsureWriteable ⟨[1, 2, 3, 4, 5, 6], 2, 6⟩ (2 ^ 64 - 4) = .ok ⟨[1, 2, 3], 2, 6⟩ ∧
    (⟨[1, 2, 3], 2, 6⟩ : Buffer).size ≠ 6 + (2 ^ 64 - 4) + 1 ∧
    (⟨[1, 2, 3], 2, 6⟩ : Buffer).buffer_[3]? ≠ (⟨[1, 2, 3, 4, 5, 6], 2, 6⟩ : Buffer).buffer_[3]?
    := by
  decide

/-- C7: on a valid state, `Retrieve(n)` fails its `assert` exactly when
`n > ReadableBytes()`; otherwise it returns with `readPos_` advanced by `n`, `writePos_`
and the store untouched, and the readable bytes are the old ones without their first `n`. -/
theorem C7_Retrieve (b : Buffer) (n : Nat) (hv : Valid b) :
    (Retrieve b n = .assertFail ↔ ReadableBytes b < n) ∧
    (n ≤ ReadableBytes b →
      ∃ b1, Retrieve b n = .ok b1 ∧
        b1.readPos_ = b.readPos_ + n ∧ b1.writePos_ = b.writePos_ ∧
        b1.buffer_ = b.buffer_ ∧
        readable b1 = (readable b).drop n) := by
  constructor
  · unfold Retrieve
    by_cases h : n ≤ ReadableBytes b
    · rw [if_pos h]
      constructor
      · intro h1; cases h1
      · intro h1; omega
    · rw [if_neg h]
      exact ⟨fun _ => by omega, fun _ => rfl⟩
  · intro h
    have hR := ReadableBytes_eq hv
    have hv1 : Valid { b with readPos_ := b.readPos_ + n } := by
      refine ⟨⟨?_, hv.1.2⟩, hv.2⟩
      show b.readPos_ + n ≤ b.writePos_
      have := hv.1.1
      omega
    refine ⟨_, Retrieve_of_le hv h, rfl, rfl, rfl, ?_⟩
    rw [readable_eq hv1, readable_eq hv]
    show (b.buffer_.drop (b.readPos_ + n)).take (b.writePos_ - (b.readPos_ + n)) = _
    rw [List.drop_take, List.drop_drop, Nat.sub_add_eq]

/-- C7 on a state with four readable bytes, three of them consumed. -/
theorem C7_Retrieve_witness :
    Valid ⟨[1, 2, 3, 4, 5, 6], 1, 5⟩ ∧
    ((Retrieve ⟨[1, 2, 3, 4, 5, 6], 1, 5⟩ 3 = .assertFail
        ↔ ReadableBytes ⟨[1, 2, 3, 4, 5, 6], 1, 5⟩ < 3) ∧
    (3 ≤ ReadableBytes ⟨[1, 2, 3, 4, 5, 6], 1, 5⟩ →
      ∃ b1, Retrieve ⟨[1, 2, 3, 4, 5, 6], 1, 5⟩ 3 = .ok b1 ∧
        b1.readPos_ = 1 + 3 ∧ b1.writePos_ = 5 ∧
        b1.buffer_ = [1, 2, 3, 4, 5, 6] ∧
        readable b1 = (readable ⟨[1, 2, 3, 4, 5, 6], 1, 5⟩).drop 3)) :=
  ⟨by decide, C7_Retrieve ⟨[1, 2, 3, 4, 5, 6], 1, 5⟩ 3 (by decide)⟩

/-- C8: on a valid state and for a pointer at offset `p` of the store, `RetrieveUntil(p)`
returns exactly when `readPos_ <= p <= writePos_`; it then does what
`Retrieve(p - readPos_)` does and leaves `readPos_ = p`; for every other `p` it ends in a
failed `assert`, so no state is produced. -/
theorem C8_RetrieveUntil (b : Buffer) (p : Nat) (hv : Valid b) (hp : p < SIZE_MOD) :
    ((∃ b1, RetrieveUntil b p = .ok b1) ↔ (b.readPos_ ≤ p ∧ p ≤ b.writePos_)) ∧
    (b.readPos_ ≤ p ∧ p ≤ b.writePos_ →
      RetrieveUntil b p = Retrieve b (p - b.readPos_) ∧
      RetrieveUntil b p = .ok { b with readPos_ := p }) ∧
    (¬ (b.readPos_ ≤ p ∧ p ≤ b.writePos_) → RetrieveUntil b p = .assertFail) := by
  have hR := ReadableBytes_eq hv
  have hrw := hv.1.1
  have hin : b.readPos_ ≤ p ∧ p ≤ b.writePos_ →
      RetrieveUntil b p = Retrieve b (p - b.readPos_) ∧
      RetrieveUntil b p = .ok { b with readPos_ := p } := by
    rintro ⟨h1, h2⟩
    have hstep : RetrieveUntil b p = Retrieve b (p - b.readPos_) := by
      unfold RetrieveUntil Peek
      rw [if_pos h1, sizeSub_eq h1 hp]
    refine ⟨hstep, ?_⟩
    rw [hstep, Retrieve_of_le hv (by omega)]
    have h3 : b.readPos_ + (p - b.readPos_) = p := by omega
    rw [h3]
  have hout : ¬ (b.readPos_ ≤ p ∧ p ≤ b.writePos_) → RetrieveUntil b p = .assertFail := by
    intro h
    unfold RetrieveUntil Peek
    by_cases h1 : b.readPos_ ≤ p
    · rw [if_pos h1, sizeSub_eq h1 hp]
      unfold Retrieve
      rw [if_neg (by omega)]
    · rw [if_neg h1]
  refine ⟨⟨?_, fun h => ⟨_, (hin h).2⟩⟩, hin, hout⟩
  rintro ⟨b1, h1⟩
  by_contra h
  rw [hout h] at h1
  cases h1

/-- C8 at a pointer inside the readable zone. -/
theorem C8_RetrieveUntil_witness :
    Valid ⟨[1, 2, 3, 4, 5, 6], 1, 5⟩ ∧ 3 < SIZE_MOD ∧
    (((∃ b1, RetrieveUntil ⟨[1, 2, 3, 4, 5, 6], 1, 5⟩ 3 = .ok b1) ↔ (1 ≤ 3 ∧ 3 ≤ 5)) ∧
    (1 ≤ 3 ∧ 3 ≤ 5 →
      RetrieveUntil ⟨[1, 2, 3, 4, 5, 6], 1, 5⟩ 3 = Retrieve ⟨[1, 2, 3, 4, 5, 6], 1, 5⟩ (3 - 1) ∧
      RetrieveUntil ⟨[1, 2, 3, 4, 5, 6], 1, 5⟩ 3 = .ok ⟨[1, 2, 3, 4, 5, 6], 3, 5⟩) ∧
    (¬ (1 ≤ 3 ∧ 3 ≤ 5) → RetrieveUntil ⟨[1, 2, 3, 4, 5, 6], 1, 5⟩ 3 = .assertFail)) :=
  ⟨by decide, by decide, C8_RetrieveUntil ⟨[1, 2, 3, 4, 5, 6], 1, 5⟩ 3 (by decide) (by decide)⟩

/-- C9: on a valid state, `RetrieveAll` puts both cursors at 0, makes every byte of the
store zero and keeps the length of the store, so that `ReadableBytes()` is 0 and
`WritableBytes()` is the length of the store; a second `RetrieveAll` changes nothing. -/
theorem C9_RetrieveAll (b : Buffer) (hv : Valid b) :
    (RetrieveAll b).readPos_ = 0 ∧ (RetrieveAll b).writePos_ = 0 ∧
    (∀ x ∈ (RetrieveAll b).buffer_, x = 0) ∧
    (RetrieveAll b).size = b.size ∧
    ReadableBytes (RetrieveAll b) = 0 ∧
    WritableBytes (RetrieveAll b) = b.size ∧
    RetrieveAll (RetrieveAll b) = RetrieveAll b := by
  have hlen : (RetrieveAll b).size = b.size := by
    show (List.replicate b.size (0 : Byte)).length = b.size
    rw [List.length_replicate]
  refine ⟨rfl, rfl, ?_, hlen, ?_, ?_, ?_⟩
  · intro x hx
    exact List.eq_of_mem_replicate hx
  · show sizeSub 0 0 = 0
    decide
  · show sizeSub (RetrieveAll b).size 0 = b.size
    rw [hlen, sizeSub_eq (Nat.zero_le _) hv.2, Nat.sub_zero]
  · have hsame : ∀ c : Buffer, c.size = b.size → RetrieveAll c = RetrieveAll b := by
      intro c hc
      unfold RetrieveAll
      rw [hc]
    exact hsame _ hlen

/-- C9 on a state holding four unread bytes. -/
theorem C9_RetrieveAll_witness :
    Valid ⟨[1, 2, 3, 4, 5, 6], 1, 5⟩ ∧
    (RetrieveAll ⟨[1, 2, 3, 4, 5, 6], 1, 5⟩).readPos_ = 0 ∧
    (RetrieveAll ⟨[1, 2, 3, 4, 5, 6], 1, 5⟩).writePos_ = 0 ∧
    (∀ x ∈ (RetrieveAll ⟨[1, 2, 3, 4, 5, 6], 1, 5⟩).buffer_, x = 0) ∧
    (RetrieveAll ⟨[1, 2, 3, 4, 5, 6], 1, 5⟩).size = (⟨[1, 2, 3, 4, 5, 6], 1, 5⟩ : Buffer).size ∧
    ReadableBytes (RetrieveAll ⟨[1, 2, 3, 4, 5, 6], 1, 5⟩) = 0 ∧
    WritableBytes (RetrieveAll ⟨[1, 2, 3, 4, 5, 6], 1, 5⟩)
      = (⟨[1, 2, 3, 4, 5, 6], 1, 5⟩ : Buffer).size ∧
    RetrieveAll (RetrieveAll ⟨[1, 2, 3, 4, 5, 6], 1, 5⟩)
      = RetrieveAll ⟨[1, 2, 3, 4, 5, 6], 1, 5⟩ :=
  ⟨by decide, C9_RetrieveAll ⟨[1, 2, 3, 4, 5, 6], 1, 5⟩ (by decide)⟩

/-- C10: on a valid state, `RetrieveAllToStr` returns the readable bytes as they were
before the call, `ReadableBytes()` of them, and leaves the buffer in the state
`RetrieveAll` produces from the same starting state. -/
theorem C10_RetrieveAllToStr (b : Buffer) (hv : Valid b) :
    RetrieveAllToStr b = .ok (readable b, RetrieveAll b) ∧
    (readable b).length = ReadableBytes b := by
  refine ⟨?_, length_readable hv⟩
  have hR := ReadableBytes_eq hv
  have hrw := hv.1.1
  have hws := hv.1.2
  unfold Buffer.size at hws
  unfold RetrieveAllToStr readRange
  rw [if_pos (by unfold Peek; omega), Outcome.bind_ok]
  rfl

/-- C10 on a state holding four unread bytes. -/
theorem C10_RetrieveAllToStr_witness :
    Valid ⟨[1, 2, 3, 4, 5, 6], 1, 5⟩ ∧
    RetrieveAllToStr ⟨[1, 2, 3, 4, 5, 6], 1, 5⟩
      = .ok ([2, 3, 4, 5], ⟨[0, 0, 0, 0, 0, 0], 0, 0⟩) ∧
    (readable ⟨[1, 2, 3, 4, 5, 6], 1, 5⟩).length = ReadableBytes ⟨[1, 2, 3, 4, 5, 6], 1, 5⟩ :=
  ⟨by decide, C10_RetrieveAllToStr ⟨[1, 2, 3, 4, 5, 6], 1, 5⟩ (by decide)⟩

/-- C11: when the system call fails, `ReadFd` and `WriteFd` return its negative result,
store the error code in `*saveErrno` and leave the buffer as it was. -/
theorem C11_io_failure_leaves_buffer (b : Buffer) (s errno : Int) :
    ReadFd b s (.failed errno) = .ok { ret := -1, saveErrno := errno, buf := b } ∧
    WriteFd b s (.failed errno) = .ok { ret := -1, saveErrno := errno, buf := b } ∧
    (-1 : Int) < 0 := by
  refine ⟨rfl, rfl, by decide⟩

/-- C13: on a valid state, a read that delivers `D` with `len(D) <= WritableBytes()`
returns `len(D)`, advances `writePos_` by `len(D)` and leaves `readPos_`, the length of the
store and every byte in front of the old `writePos_` as they were; the bytes of `D` are
the new bytes of the readable zone. -/
theorem C13_ReadFd_fits (b : Buffer) (D : List Byte) (s : Int) (hv : Valid b)
    (h : D.length ≤ WritableBytes b) :
    ∃ r, ReadFd b s (.received D) = .ok r ∧
      r.ret = D.length ∧ r.saveErrno = s ∧
      r.buf.writePos_ = b.writePos_ + D.length ∧
      r.buf.readPos_ = b.readPos_ ∧
      r.buf.size = b.size ∧
      r.buf.buffer_.take b.writePos_ = b.buffer_.take b.writePos_ ∧
      r.buf.buffer_.drop (b.writePos_ + D.length) = b.buffer_.drop (b.writePos_ + D.length) ∧
      readable r.buf = readable b ++ D := by
  have hfits : b.writePos_ + D.length ≤ b.buffer_.length := by
    have := WritableBytes_eq hv
    have := hv.1.2
    unfold Buffer.size at this
    omega
  have hl : (b.buffer_.take b.writePos_).length = b.writePos_ := by
    rw [List.length_take]; omega
  refine ⟨_, ReadFd_fits s hv h, rfl, rfl, rfl, rfl, written_length hfits, ?_, ?_,
    readable_written hv hfits⟩
  · show (b.buffer_.take b.writePos_ ++ D
      ++ b.buffer_.drop (b.writePos_ + D.length)).take b.writePos_ = _
    rw [List.append_assoc, List.take_append_of_le_length (by omega),
      List.take_of_length_le (by omega)]
  · show (b.buffer_.take b.writePos_ ++ D
      ++ b.buffer_.drop (b.writePos_ + D.length)).drop (b.writePos_ + D.length) = _
    have hl2 : (b.buffer_.take b.writePos_ ++ D).length = b.writePos_ + D.length := by
      rw [List.length_append, hl]
    rw [← hl2, List.drop_left]

/-- C13 on a buffer of capacity 6 with three bytes of tail room and two bytes read. -/
theorem C13_ReadFd_fits_witness :
    Valid ⟨[1, 2, 3, 4, 5, 6], 1, 3⟩ ∧
    ([8, 9] : List Byte).length ≤ WritableBytes ⟨[1, 2, 3, 4, 5, 6], 1, 3⟩ ∧
    ∃ r, ReadFd ⟨[1, 2, 3, 4, 5, 6], 1, 3⟩ 0 (.received [8, 9]) = .ok r ∧
      r.ret = 2 ∧ r.saveErrno = 0 ∧
      r.buf.writePos_ = 3 + 2 ∧
      r.buf.readPos_ = 1 ∧
      r.buf.size = 6 ∧
      r.buf.buffer_.take 3 = [1, 2, 3] ∧
      r.buf.buffer_.drop (3 + 2) = [6] ∧
      readable r.buf = readable ⟨[1, 2, 3, 4, 5, 6], 1, 3⟩ ++ [8, 9] :=
  ⟨by decide, by decide,
    C13_ReadFd_fits ⟨[1, 2, 3, 4, 5, 6], 1, 3⟩ [8, 9] 0 (by decide) (by decide)⟩

/-- C14: on a valid state, a write of which the descriptor accepts `k <= ReadableBytes()`
bytes returns `k`, advances `readPos_` by `k`, leaves `writePos_` and the store as they
were, and the readable bytes are the old ones without their first `k`.  After
`Append("hello", 5)` on a fresh buffer of capacity 8 and a write accepting 5 bytes,
`ReadableBytes()` is 0. -/
theorem C14_WriteFd_partial (b : Buffer) (k : Nat) (s : Int) (hv : Valid b)
    (h : k ≤ ReadableBytes b) :
    (∃ r, WriteFd b s (.accepted k) = .ok r ∧
      r.ret = k ∧ r.saveErrno = s ∧
      r.buf.readPos_ = b.readPos_ + k ∧
      r.buf.writePos_ = b.writePos_ ∧
      r.buf.buffer_ = b.buffer_ ∧
      readable r.buf = (readable b).drop k ∧
      ReadableBytes r.buf = ReadableBytes b - k) ∧
    (∃ b1 r, Append (Buffer.init 8) (some [104, 101, 108, 108, 111]) 5 = .ok b1 ∧
      ReadableBytes b1 = 5 ∧
      WriteFd b1 s (.accepted 5) = .ok r ∧ r.ret = 5 ∧ ReadableBytes r.buf = 0) := by
  constructor
  · have hadv := readable_advance hv h
    refine ⟨_, WriteFd_accepted s hv h, rfl, rfl, rfl, rfl, rfl, hadv.2, ?_⟩
    rw [ReadableBytes_eq hadv.1, ReadableBytes_eq hv]
    show b.writePos_ - (b.readPos_ + k) = _
    omega
  · refine ⟨⟨[104, 101, 108, 108, 111, 0, 0, 0], 0, 5⟩, _, by decide, by decide, rfl, rfl, ?_⟩
    show ReadableBytes ⟨[104, 101, 108, 108, 111, 0, 0, 0], sizeAdd 0 5, 5⟩ = 0
    decide

/-- C14 on a state with four readable bytes of which the descriptor accepts three. -/
theorem C14_WriteFd_partial_witness :
    Valid ⟨[1, 2, 3, 4, 5, 6], 1, 5⟩ ∧
    3 ≤ ReadableBytes ⟨[1, 2, 3, 4, 5, 6], 1, 5⟩ ∧
    (∃ r, WriteFd ⟨[1, 2, 3, 4, 5, 6], 1, 5⟩ 0 (.accepted 3) = .ok r ∧
      r.ret = 3 ∧ r.saveErrno = 0 ∧
      r.buf.readPos_ = 1 + 3 ∧
      r.buf.writePos_ = 5 ∧
      r.buf.buffer_ = [1, 2, 3, 4, 5, 6] ∧
      readable r.buf = (readable ⟨[1, 2, 3, 4, 5, 6], 1, 5⟩).drop 3 ∧
      ReadableBytes r.buf = ReadableBytes ⟨[1, 2, 3, 4, 5, 6], 1, 5⟩ - 3) ∧
    (∃ b1 r, Append (Buffer.init 8) (some [104, 101, 108, 108, 111]) 5 = .ok b1 ∧
      ReadableBytes b1 = 5 ∧
      WriteFd b1 0 (.accepted 5) = .ok r ∧ r.ret = 5 ∧ ReadableBytes r.buf = 0) :=
  ⟨by decide, by decide,
    C14_WriteFd_partial ⟨[1, 2, 3, 4, 5, 6], 1, 5⟩ 3 0 (by decide) (by decide)⟩

/-- C12: on a valid state with readable bytes `R` and a writable tail of `w` bytes, a read
that delivers `D` with `w < len(D) <= w + 65535` returns `len(D)`, and afterwards the
readable bytes are `R` followed by `D` and `ReadableBytes()` is `len(R) + len(D)`.
The store is an object of the program, so it is not longer than `PTRDIFF_MAX`. -/
theorem C12_ReadFd_oversized (b : Buffer) (D : List Byte) (s : Int) (hv : Valid b)
    (hb : b.size ≤ PTRDIFF_MAX) (h1 : WritableBytes b < D.length)
    (h2 : D.length ≤ WritableBytes b + 65535) :
    ∃ r, ReadFd b s (.received D) = .ok r ∧
      r.ret = D.length ∧
      readable r.buf = readable b ++ D ∧
      ReadableBytes r.buf = (readable b).length + D.length := by
  have hW := WritableBytes_eq hv
  have hws := hv.1.2
  unfold Buffer.size at hws hb
  have hD : D.length < SIZE_MOD := by
    simp only [SIZE_MOD, PTRDIFF_MAX] at *
    omega
  have hlt : (D.take (WritableBytes b)).length = WritableBytes b := by
    rw [List.length_take]; omega
  have hfits : b.writePos_ + (D.take (WritableBytes b)).length ≤ b.buffer_.length := by
    rw [hlt]; omega
  have hv1 := Valid_written hv hfits
  have hfit : WritableBytes (written b (D.take (WritableBytes b)))
        + PrependableBytes (written b (D.take (WritableBytes b)))
        < (D.drop (WritableBytes b)).length →
      (written b (D.take (WritableBytes b))).writePos_ + (D.drop (WritableBytes b)).length + 1
        < SIZE_MOD := by
    intro _
    show b.writePos_ + (D.take (WritableBytes b)).length + (D.drop (WritableBytes b)).length + 1
      < SIZE_MOD
    rw [hlt, List.length_drop]
    simp only [SIZE_MOD, PTRDIFF_MAX] at *
    omega
  obtain ⟨b2, ha, hv2, hrd, _, _⟩ := Append_spec hv1 hfit
  have hrd2 : readable b2 = readable b ++ D := by
    rw [hrd, readable_written hv hfits, List.append_assoc, List.take_append_drop]
  refine ⟨{ ret := D.length, saveErrno := s, buf := b2 }, ?_, rfl, hrd2, ?_⟩
  · rw [ReadFd_oversized s hv h1 hD, ha, Outcome.bind_ok]
  · show ReadableBytes b2 = _
    rw [← length_readable hv2, hrd2, List.length_append]

/-- C12 on a buffer of capacity 4 with one readable byte and two bytes of tail room,
into which five bytes are read: the store has to grow. -/
theorem C12_ReadFd_oversized_witness :
    Valid ⟨[7, 9, 0, 0], 1, 2⟩ ∧
    (⟨[7, 9, 0, 0], 1, 2⟩ : Buffer).size ≤ PTRDIFF_MAX ∧
    WritableBytes ⟨[7, 9, 0, 0], 1, 2⟩ < ([1, 2, 3, 4, 5] : List Byte).length ∧
    ([1, 2, 3, 4, 5] : List Byte).length ≤ WritableBytes ⟨[7, 9, 0, 0], 1, 2⟩ + 65535 ∧
    ∃ r, ReadFd ⟨[7, 9, 0, 0], 1, 2⟩ 0 (.received [1, 2, 3, 4, 5]) = .ok r ∧
      r.ret = 5 ∧
      readable r.buf = readable ⟨[7, 9, 0, 0], 1, 2⟩ ++ [1, 2, 3, 4, 5] ∧
      ReadableBytes r.buf = (readable ⟨[7, 9, 0, 0], 1, 2⟩).length + 5 :=
  ⟨by decide, by decide, by decide, by decide,
    C12_ReadFd_oversized ⟨[7, 9, 0, 0], 1, 2⟩ [1, 2, 3, 4, 5] 0
      (by decide) (by decide) (by decide) (by decide)⟩

/-- C16 as stated fails: `Append` of a null source with length 0 on a fresh buffer of
capacity 8 ends in the failed `assert(str)`; it does not return. -/
theorem C16_null_source_length_zero_asserts :
    Append (Buffer.init 8) none 0 = .assertFail ∧
    ¬ ∃ b2, Append (Buffer.init 8) none 0 = .ok b2 := by
  refine ⟨rfl, ?_⟩
  rintro ⟨b2, h⟩
  cases h

/-- C16 (amended): with the source an optional byte sequence that, when present, holds at
least `len` bytes, `Append(source, len)` on a valid state fails its `assert` exactly when
the source is null, whatever `len` is, also `len = 0`; with a source present it returns
and the first `len` bytes of the source follow the old readable bytes. -/
theorem C16_Append_null_source (b : Buffer) (str : Option (List Byte)) (len : Nat)
    (hv : Valid b) (hb : b.size ≤ PTRDIFF_MAX)
    (hsrc : ∀ src, str = some src → len ≤ src.length ∧ src.length ≤ PTRDIFF_MAX) :
    (Append b str len = .assertFail ↔ str = none) ∧
    (str = none → Append b str len = .assertFail) ∧
    (∀ src, str = some src →
      ∃ b2, Append b str len = .ok b2 ∧ readable b2 = readable b ++ src.take len) := by
  have hsome : ∀ src, str = some src →
      ∃ b2, Append b str len = .ok b2 ∧ readable b2 = readable b ++ src.take len := by
    intro src h
    obtain ⟨h1, h2⟩ := hsrc src h
    have hl : (src.take len).length = len := by rw [List.length_take]; omega
    have hfit : WritableBytes b + PrependableBytes b < (src.take len).length →
        b.writePos_ + (src.take len).length + 1 < SIZE_MOD := by
      intro _
      have := hv.1.2
      rw [hl]
      simp only [SIZE_MOD, PTRDIFF_MAX] at *
      omega
    obtain ⟨b2, h3, _, h4, _⟩ := Append_spec hv hfit
    exact ⟨b2, by rw [h, Append_take b src len h1, h3], h4⟩
  refine ⟨⟨?_, ?_⟩, ?_, hsome⟩
  · intro hfail
    cases hstr : str with
    | none => rfl
    | some src =>
      obtain ⟨b2, h3, _⟩ := hsome src hstr
      rw [hfail] at h3
      cases h3
  · intro h
    rw [h]
    rfl
  · intro h
    rw [h]
    rfl

/-- C16 (amended) at a source of three bytes of which two are appended. -/
theorem C16_Append_null_source_witness :
    Valid (Buffer.init 8) ∧ (Buffer.init 8).size ≤ PTRDIFF_MAX ∧
    (∀ src : List Byte, some [1, 2, 3] = some src → 2 ≤ src.length ∧ src.length ≤ PTRDIFF_MAX) ∧
    ((Append (Buffer.init 8) (some [1, 2, 3]) 2 = .assertFail
        ↔ (some [1, 2, 3] : Option (List Byte)) = none) ∧
    ((some [1, 2, 3] : Option (List Byte)) = none →
      Append (Buffer.init 8) (some [1, 2, 3]) 2 = .assertFail) ∧
    (∀ src : List Byte, some [1, 2, 3] = some src →
      ∃ b2, Append (Buffer.init 8) (some [1, 2, 3]) 2 = .ok b2 ∧
        readable b2 = readable (Buffer.init 8) ++ src.take 2)) :=
  have hsrc : ∀ src : List Byte, some [1, 2, 3] = some src →
      2 ≤ src.length ∧ src.length ≤ PTRDIFF_MAX := by
    intro src h
    injection h with h
    subst h
    decide
  ⟨by decide, by decide, hsrc,
    C16_Append_null_source (Buffer.init 8) (some [1, 2, 3]) 2 (by decide) (by decide) hsrc⟩

/-- C17: `Append` of `B` with `len(B) > c` on a freshly constructed buffer of capacity `c`
returns with `ReadableBytes() = len(B)`, a store of `len(B) + 1` bytes and
`WritableBytes() >= 1`; every `Append` on a valid state that takes the growth branch of
`MakeSpace_` returns with `WritableBytes() >= 1`; capacity 4 and `Append("abcdefgh", 8)`
give `ReadableBytes() = 8` and `WritableBytes() >= 1`.  Stores and `B` are objects of the
program, so none is longer than `PTRDIFF_MAX`. -/
theorem C17_forced_growth_headroom (c : Nat) (b : Buffer) (B : List Byte)
    (hc : c ≤ PTRDIFF_MAX) (hB : B.length ≤ PTRDIFF_MAX) (hlen : c < B.length)
    (hv : Valid b) (hb : b.size ≤ PTRDIFF_MAX)
    (hgrow : WritableBytes b + PrependableBytes b < B.length) :
    (∃ b2, Append (Buffer.init c) (some B) B.length = .ok b2 ∧
      ReadableBytes b2 = B.length ∧ 1 ≤ WritableBytes b2 ∧ b2.size = B.length + 1) ∧
    (∃ b2, Append b (some B) B.length = .ok b2 ∧ 1 ≤ WritableBytes b2) ∧
    (∃ b2, Append (Buffer.init 4) (some [97, 98, 99, 100, 101, 102, 103, 104]) 8 = .ok b2 ∧
      ReadableBytes b2 = 8 ∧ 1 ≤ WritableBytes b2) := by
  have hvc : Valid (Buffer.init c) := by
    refine ⟨⟨Nat.le_refl _, Nat.zero_le _⟩, ?_⟩
    show (List.replicate c (0 : Byte)).length < SIZE_MOD
    rw [List.length_replicate]
    simp only [SIZE_MOD, PTRDIFF_MAX] at *
    omega
  have hWc : WritableBytes (Buffer.init c) = c := by
    rw [WritableBytes_eq hvc]
    show (List.replicate c (0 : Byte)).length - 0 = c
    rw [List.length_replicate, Nat.sub_zero]
  have hgc : WritableBytes (Buffer.init c) + PrependableBytes (Buffer.init c) < B.length := by
    rw [hWc]
    exact hlen
  have hnc : (Buffer.init c).writePos_ + B.length + 1 < SIZE_MOD := by
    show 0 + B.length + 1 < SIZE_MOD
    simp only [SIZE_MOD, PTRDIFF_MAX] at *
    omega
  have hnb : b.writePos_ + B.length + 1 < SIZE_MOD := by
    have := hv.1.2
    unfold Buffer.size at *
    simp only [SIZE_MOD, PTRDIFF_MAX] at *
    omega
  obtain ⟨ha, hva, hsa⟩ := Append_grow hvc hgc hnc
  obtain ⟨hb2, hvb, hsb⟩ := Append_grow hv hgrow hnb
  refine ⟨⟨_, ha, ?_, ?_, ?_⟩, ⟨_, hb2, ?_⟩, ⟨⟨[97, 98, 99, 100, 101, 102, 103, 104, 0], 0, 8⟩,
    by decide, by decide, by decide⟩⟩
  · rw [ReadableBytes_eq hva]
    show 0 + B.length - 0 = B.length
    omega
  · unfold Buffer.size at hsa
    rw [WritableBytes_eq hva, hsa]
    show 1 ≤ 0 + B.length + 1 - (0 + B.length)
    omega
  · rw [hsa]
    show 0 + B.length + 1 = _
    omega
  · unfold Buffer.size at hsb
    rw [WritableBytes_eq hvb, hsb]
    show 1 ≤ b.writePos_ + B.length + 1 - (b.writePos_ + B.length)
    omega

/-- C17 at capacity 4 and the eight bytes of "abcdefgh", and at a state with one readable
byte whose append of the same bytes takes the growth branch. -/
theorem C17_forced_growth_headroom_witness :
    4 ≤ PTRDIFF_MAX ∧
    ([97, 98, 99, 100, 101, 102, 103, 104] : List Byte).length ≤ PTRDIFF_MAX ∧
    4 < ([97, 98, 99, 100, 101, 102, 103, 104] : List Byte).length ∧
    Valid ⟨[7, 9, 0, 0], 1, 2⟩ ∧ (⟨[7, 9, 0, 0], 1, 2⟩ : Buffer).size ≤ PTRDIFF_MAX ∧
    WritableBytes ⟨[7, 9, 0, 0], 1, 2⟩ + PrependableBytes ⟨[7, 9, 0, 0], 1, 2⟩
      < ([97, 98, 99, 100, 101, 102, 103, 104] : List Byte).length ∧
    ((∃ b2, Append (Buffer.init 4) (some [97, 98, 99, 100, 101, 102, 103, 104]) 8 = .ok b2 ∧
      ReadableBytes b2 = 8 ∧ 1 ≤ WritableBytes b2 ∧ b2.size = 8 + 1) ∧
    (∃ b2, Append ⟨[7, 9, 0, 0], 1, 2⟩ (some [97, 98, 99, 100, 101, 102, 103, 104]) 8 = .ok b2 ∧
      1 ≤ WritableBytes b2) ∧
    (∃ b2, Append (Buffer.init 4) (some [97, 98, 99, 100, 101, 102, 103, 104]) 8 = .ok b2 ∧
      ReadableBytes b2 = 8 ∧ 1 ≤ WritableBytes b2)) :=
  ⟨by decide, by decide, by decide, by decide, by decide, by decide,
    C17_forced_growth_headroom 4 ⟨[7, 9, 0, 0], 1, 2⟩ [97, 98, 99, 100, 101, 102, 103, 104]
      (by decide) (by decide) (by decide) (by decide) (by decide) (by decide)⟩

/-- C18: on a valid state, when `MakeSpace_(len)` is reached from `EnsureWriteable`
(`WritableBytes() < len`) and `WritableBytes() + PrependableBytes() >= len`, then
`readPos_ > 0`, and the front-to-back copy of `[readPos_, writePos_)` to offset 0 leaves the
old readable bytes at the front of the store, overlapping ranges included; afterwards
`readPos_ = 0`, `writePos_` is the old `ReadableBytes()` and the store has kept its length. -/
theorem C18_compaction_overlap_safe (b : Buffer) (len : Nat) (hv : Valid b)
    (h1 : WritableBytes b < len) (h2 : len ≤ WritableBytes b + PrependableBytes b) :
    0 < b.readPos_ ∧
    ∃ b1, MakeSpace_ b len = .ok b1 ∧
      b1.buffer_ = copyFwd b.buffer_ b.readPos_ 0 (ReadableBytes b) ∧
      b1.buffer_.take (ReadableBytes b) = readable b ∧
      b1.readPos_ = 0 ∧ b1.writePos_ = ReadableBytes b ∧ b1.size = b.size := by
  have hR := ReadableBytes_eq hv
  refine ⟨?_, compacted b, MakeSpace_compact hv h2, ?_, ?_, rfl, ?_, compacted_length b⟩
  · unfold PrependableBytes at h2
    omega
  · rw [hR]
    rfl
  · rw [readable_eq hv, hR]
    exact take_copyFwd _ _ _ hv.1.1 hv.1.2
  · rw [hR]
    rfl

/-- C18 at a compaction whose ranges overlap: `readPos_ = 1`, four readable bytes. -/
theorem C18_compaction_overlap_safe_witness :
    Valid ⟨[1, 2, 3, 4, 5, 6], 1, 5⟩ ∧
    WritableBytes ⟨[1, 2, 3, 4, 5, 6], 1, 5⟩ < 2 ∧
    2 ≤ WritableBytes ⟨[1, 2, 3, 4, 5, 6], 1, 5⟩
      + PrependableBytes ⟨[1, 2, 3, 4, 5, 6], 1, 5⟩ ∧
    (0 < (⟨[1, 2, 3, 4, 5, 6], 1, 5⟩ : Buffer).readPos_ ∧
    ∃ b1, MakeSpace_ ⟨[1, 2, 3, 4, 5, 6], 1, 5⟩ 2 = .ok b1 ∧
      b1.buffer_ = copyFwd [1, 2, 3, 4, 5, 6] 1 0 (ReadableBytes ⟨[1, 2, 3, 4, 5, 6], 1, 5⟩) ∧
      b1.buffer_.take (ReadableBytes ⟨[1, 2, 3, 4, 5, 6], 1, 5⟩)
        = readable ⟨[1, 2, 3, 4, 5, 6], 1, 5⟩ ∧
      b1.readPos_ = 0 ∧ b1.writePos_ = ReadableBytes ⟨[1, 2, 3, 4, 5, 6], 1, 5⟩ ∧
      b1.size = (⟨[1, 2, 3, 4, 5, 6], 1, 5⟩ : Buffer).size) :=
  ⟨by decide, by decide, by decide,
    C18_compaction_overlap_safe ⟨[1, 2, 3, 4, 5, 6], 1, 5⟩ 2
      (by decide) (by decide) (by decide)⟩

/-- C19 (refuted on the code): the store shrinks. On the valid state reached from a fresh
buffer of capacity 8 by appending four bytes, `EnsureWriteable(2^64 - 4)` takes the growth
branch of `MakeSpace_` (`WritableBytes() + PrependableBytes() = 4 < len`), the new size
`4 + (2^64 - 4) + 1` is 1 modulo `2^64`, and the call returns with a store of 1 byte. -/
theorem C19_store_shrinks_in_growth_branch :
    Append (Buffer.init 8) (some [1, 2, 3, 4]) 4 = .ok ⟨[1, 2, 3, 4, 0, 0, 0, 0], 0, 4⟩ ∧
    Valid ⟨[1, 2, 3, 4, 0, 0, 0, 0], 0, 4⟩ ∧
    WritableBytes ⟨[1, 2, 3, 4, 0, 0, 0, 0], 0, 4⟩
      + PrependableBytes ⟨[1, 2, 3, 4, 0, 0, 0, 0], 0, 4⟩ < 2 ^ 64 - 4 ∧
    MakeSpace_ ⟨[1, 2, 3, 4, 0, 0, 0, 0], 0, 4⟩ (2 ^ 64 - 4) = .ok ⟨[1], 0, 4⟩ ∧
    EnsureWriteable ⟨[1, 2, 3, 4, 0, 0, 0, 0], 0, 4⟩ (2 ^ 64 - 4) = .ok ⟨[1], 0, 4⟩ ∧
    (⟨[1], 0, 4⟩ : Buffer).size < (⟨[1, 2, 3, 4, 0, 0, 0, 0], 0, 4⟩ : Buffer).size := by
  decide

/-- C20: with `size_t` arithmetic modulo `2^64`, on a valid state and for `len` with
`writePos_ + len + 1 < 2^64`, the size the growth branch computes is `writePos_ + len + 1`,
the growth branch leaves a store of that length, `EnsureWriteable(len)` returns with its
closing `assert(WritableBytes() >= len)` passed, and the sum
`WritableBytes() + PrependableBytes()` of the branch test does not wrap, being at most
`buffer_.size()`. -/
theorem C20_growth_arithmetic (b : Buffer) (len : Nat) (hv : Valid b)
    (h : b.writePos_ + len + 1 < SIZE_MOD) :
    sizeAdd (sizeAdd b.writePos_ len) 1 = b.writePos_ + len + 1 ∧
    (WritableBytes b + PrependableBytes b < len →
      ∃ b1, MakeSpace_ b len = .ok b1 ∧ b1.size = b.writePos_ + len + 1) ∧
    (∃ b1, EnsureWriteable b len = .ok b1 ∧ WritableBytes b1 ≥ len) ∧
    sizeAdd (WritableBytes b) (PrependableBytes b) = WritableBytes b + PrependableBytes b ∧
    WritableBytes b + PrependableBytes b ≤ b.size := by
  have hnew : sizeAdd (sizeAdd b.writePos_ len) 1 = b.writePos_ + len + 1 := by
    rw [sizeAdd_eq (by omega : b.writePos_ + len < SIZE_MOD), sizeAdd_eq h]
  refine ⟨hnew, ?_, ?_, (sum_free_eq hv).1, (sum_free_eq hv).2⟩
  · intro hg
    refine ⟨_, MakeSpace_grow hv hg, ?_⟩
    rw [hnew]
    exact length_resize _ _
  · obtain ⟨b1, h1, _, h3, _⟩ := EnsureWriteable_spec hv (fun _ => h)
    exact ⟨b1, h1, h3⟩

/-- C20 at a state whose request takes the growth branch. -/
theorem C20_growth_arithmetic_witness :
    Valid ⟨[7, 9, 0, 0], 1, 2⟩ ∧
    (⟨[7, 9, 0, 0], 1, 2⟩ : Buffer).writePos_ + 8 + 1 < SIZE_MOD ∧
    (sizeAdd (sizeAdd (⟨[7, 9, 0, 0], 1, 2⟩ : Buffer).writePos_ 8) 1
      = (⟨[7, 9, 0, 0], 1, 2⟩ : Buffer).writePos_ + 8 + 1 ∧
    (WritableBytes ⟨[7, 9, 0, 0], 1, 2⟩ + PrependableBytes ⟨[7, 9, 0, 0], 1, 2⟩ < 8 →
      ∃ b1, MakeSpace_ ⟨[7, 9, 0, 0], 1, 2⟩ 8 = .ok b1 ∧
        b1.size = (⟨[7, 9, 0, 0], 1, 2⟩ : Buffer).writePos_ + 8 + 1) ∧
    (∃ b1, EnsureWriteable ⟨[7, 9, 0, 0], 1, 2⟩ 8 = .ok b1 ∧ WritableBytes b1 ≥ 8) ∧
    sizeAdd (WritableBytes ⟨[7, 9, 0, 0], 1, 2⟩) (PrependableBytes ⟨[7, 9, 0, 0], 1, 2⟩)
      = WritableBytes ⟨[7, 9, 0, 0], 1, 2⟩ + PrependableBytes ⟨[7, 9, 0, 0], 1, 2⟩ ∧
    WritableBytes ⟨[7, 9, 0, 0], 1, 2⟩ + PrependableBytes ⟨[7, 9, 0, 0], 1, 2⟩
      ≤ (⟨[7, 9, 0, 0], 1, 2⟩ : Buffer).size) :=
  ⟨by decide, by decide,
    C20_growth_arithmetic ⟨[7, 9, 0, 0], 1, 2⟩ 8 (by decide) (by decide)⟩

/-- C15 as stated fails.  With store `[9,9,1,2,3,9]`, `readPos_ = 2`, `writePos_ = 5` the
readable bytes are `[1,2,3]`; self-append asks `EnsureWriteable(3)`, which compacts the
store to `[1,2,3,2,3,9]`, so the source pointer, still at offset 2, sees `[3,2,3]`, and the
call returns with the readable bytes `[1,2,3,3,2,3]`.  On a buffer of capacity 0 the
source pointer is null and `assert(str)` fails.  On a full-capacity store `[1,2,3,0]` with
three readable bytes the call resizes to 7 bytes, beyond the capacity 4, and reads the
source through a pointer into the freed block. -/
theorem C15_self_append_not_a_snapshot :
    (Valid ⟨[9, 9, 1, 2, 3, 9], 2, 5⟩ ∧
      readable ⟨[9, 9, 1, 2, 3, 9], 2, 5⟩ = [1, 2, 3] ∧
      EnsureWriteable ⟨[9, 9, 1, 2, 3, 9], 2, 5⟩ 3 = .ok ⟨[1, 2, 3, 2, 3, 9], 0, 3⟩ ∧
      readRange [1, 2, 3, 2, 3, 9] 2 3 = .ok [3, 2, 3] ∧
      AppendSelf ⟨[9, 9, 1, 2, 3, 9], 2, 5⟩ 6 = .ok ⟨[1, 2, 3, 3, 2, 3], 0, 6⟩ ∧
      readable ⟨[1, 2, 3, 3, 2, 3], 0, 6⟩ = [1, 2, 3, 3, 2, 3] ∧
      readable ⟨[1, 2, 3, 3, 2, 3], 0, 6⟩
        ≠ readable ⟨[9, 9, 1, 2, 3, 9], 2, 5⟩ ++ readable ⟨[9, 9, 1, 2, 3, 9], 2, 5⟩) ∧
    (Valid (Buffer.init 0) ∧ AppendSelf (Buffer.init 0) 0 = .assertFail) ∧
    (Valid ⟨[1, 2, 3, 0], 0, 3⟩ ∧
      EnsureWriteable ⟨[1, 2, 3, 0], 0, 3⟩ 3 = .ok ⟨[1, 2, 3, 0, 0, 0, 0], 0, 3⟩ ∧
      AppendSelf ⟨[1, 2, 3, 0], 0, 3⟩ 4 = .undefined) := by
  decide

/-- C15 (amended): on a valid state with readable bytes `R`, `readPos_ = k` and a store
within its capacity, appending the buffer to itself fails `assert(str)` when the capacity
is 0; with a capacity above 0 it returns with the readable bytes `R` followed by `R` when
the writable tail already holds `R`, and when the store grows without exceeding the
capacity; when the call compacts the store it returns with `R` followed by what the source
pointer then sees, the bytes of `R` from the `k`-th on and then the last `k` bytes of `R`,
which is `R` itself when `k >= ReadableBytes()`.  The store is an object of the program,
so it is not longer than `PTRDIFF_MAX`. -/
theorem C15_AppendSelf (b : Buffer) (capacity : Nat) (hv : Valid b)
    (hcap : b.size ≤ capacity) (hb : b.size ≤ PTRDIFF_MAX) :
    (capacity = 0 → AppendSelf b capacity = .assertFail) ∧
    (0 < capacity → ReadableBytes b ≤ WritableBytes b →
      ∃ b2, AppendSelf b capacity = .ok b2 ∧ readable b2 = readable b ++ readable b) ∧
    (WritableBytes b + PrependableBytes b < ReadableBytes b →
      b.writePos_ + ReadableBytes b + 1 ≤ capacity →
      ∃ b2, AppendSelf b capacity = .ok b2 ∧ readable b2 = readable b ++ readable b) ∧
    (WritableBytes b < ReadableBytes b →
      ReadableBytes b ≤ WritableBytes b + PrependableBytes b →
      ∃ b2, AppendSelf b capacity = .ok b2 ∧
        readable b2 = readable b ++ ((readable b).drop b.readPos_
          ++ (readable b).drop (ReadableBytes b - b.readPos_)) ∧
        (ReadableBytes b ≤ b.readPos_ → readable b2 = readable b ++ readable b)) := by
  have hR := ReadableBytes_eq hv
  have hW := WritableBytes_eq hv
  have hrw := hv.1.1
  have hws := hv.1.2
  have hsl := hv.2
  unfold Buffer.size at hws hsl hcap hb
  have hview : (b.buffer_.drop (Peek b)).take (ReadableBytes b) = readable b := rfl
  refine ⟨?_, ?_, ?_, ?_⟩
  · intro h0
    have hr0 : Peek b = 0 := by
      unfold Peek
      omega
    unfold AppendSelf
    simp only [if_pos (And.intro h0 hr0)]
  · intro hpos hroom
    obtain ⟨h1, _, h3⟩ := AppendSelf_eq capacity (by omega)
      (EnsureWriteable_of_le hroom) hcap hv (by unfold Peek; omega) hroom
    exact ⟨_, h1, h3⟩
  · intro hg hc
    have hn : b.writePos_ + ReadableBytes b + 1 < SIZE_MOD := by
      simp only [SIZE_MOD, PTRDIFF_MAX] at *
      omega
    have hge : b.buffer_.length ≤ b.writePos_ + ReadableBytes b + 1 := by
      unfold PrependableBytes at hg
      omega
    have hv1 := Valid_grown hv hge hn
    have hlen1 : (grown b (b.writePos_ + ReadableBytes b + 1)).buffer_.length
        = b.writePos_ + ReadableBytes b + 1 := length_resize _ _
    have hroom : ReadableBytes b
        ≤ WritableBytes (grown b (b.writePos_ + ReadableBytes b + 1)) := by
      rw [WritableBytes_eq hv1, hlen1]
      show ReadableBytes b ≤ b.writePos_ + ReadableBytes b + 1 - b.writePos_
      omega
    obtain ⟨h1, _, h3⟩ := AppendSelf_eq capacity (by omega)
      (EnsureWriteable_grow hv hg hn) (by unfold Buffer.size; omega) hv1
      (by rw [hlen1]; unfold Peek; omega) hroom
    refine ⟨_, h1, ?_⟩
    rw [h3, readable_grown hv hge hn]
    congr 1
    show ((resize b.buffer_ _).drop b.readPos_).take (ReadableBytes b) = _
    rw [resize_of_le _ _ hge, hR, readable_eq hv]
    exact take_drop_append _ _ _ _ hws
  · intro h1 h2
    have hv1 := Valid_compacted hv
    have hcl := compacted_length b
    have hroom : ReadableBytes b ≤ WritableBytes (compacted b) := by
      rw [WritableBytes_eq hv1, hcl]
      show ReadableBytes b ≤ b.buffer_.length - (b.writePos_ - b.readPos_)
      unfold PrependableBytes at h2
      omega
    have hpos : ¬ (capacity = 0 ∧ Peek b = 0) := by
      unfold PrependableBytes at h2
      omega
    obtain ⟨h3, _, h5⟩ := AppendSelf_eq capacity hpos (EnsureWriteable_compact hv h1 h2)
      (by unfold Buffer.size; omega) hv1 (by rw [hcl]; unfold Peek; omega) hroom
    have h6 : readable (written (compacted b)
        (((compacted b).buffer_.drop (Peek b)).take (ReadableBytes b)))
        = readable b ++ ((readable b).drop b.readPos_
          ++ (readable b).drop (ReadableBytes b - b.readPos_)) := by
      rw [h5, readable_compacted hv]
      show readable b ++ ((compacted b).buffer_.drop b.readPos_).take (ReadableBytes b) = _
      rw [view_compacted hv]
    refine ⟨_, h3, h6, ?_⟩
    intro hk
    rw [h6, List.drop_of_length_le (by rw [length_readable hv]; exact hk),
      Nat.sub_eq_zero_of_le hk, List.drop_zero, List.nil_append]

/-- C15 (amended) at a self-append that compacts with `readPos_ = 4 >= 2` readable bytes. -/
theorem C15_AppendSelf_witness :
    Valid ⟨[9, 9, 9, 9, 1, 2], 4, 6⟩ ∧ (⟨[9, 9, 9, 9, 1, 2], 4, 6⟩ : Buffer).size ≤ 6 ∧
    (⟨[9, 9, 9, 9, 1, 2], 4, 6⟩ : Buffer).size ≤ PTRDIFF_MAX ∧
    AppendSelf ⟨[9, 9, 9, 9, 1, 2], 4, 6⟩ 6 = .ok ⟨[1, 2, 1, 2, 1, 2], 0, 4⟩ ∧
    readable ⟨[1, 2, 1, 2, 1, 2], 0, 4⟩ = [1, 2, 1, 2] ∧
    ((6 = 0 → AppendSelf ⟨[9, 9, 9, 9, 1, 2], 4, 6⟩ 6 = .assertFail) ∧
    (0 < 6 → ReadableBytes ⟨[9, 9, 9, 9, 1, 2], 4, 6⟩ ≤ WritableBytes ⟨[9, 9, 9, 9, 1, 2], 4, 6⟩ →
      ∃ b2, AppendSelf ⟨[9, 9, 9, 9, 1, 2], 4, 6⟩ 6 = .ok b2 ∧
        readable b2
          = readable ⟨[9, 9, 9, 9, 1, 2], 4, 6⟩ ++ readable ⟨[9, 9, 9, 9, 1, 2], 4, 6⟩) ∧
    (WritableBytes ⟨[9, 9, 9, 9, 1, 2], 4, 6⟩ + PrependableBytes ⟨[9, 9, 9, 9, 1, 2], 4, 6⟩
        < ReadableBytes ⟨[9, 9, 9, 9, 1, 2], 4, 6⟩ →
      (⟨[9, 9, 9, 9, 1, 2], 4, 6⟩ : Buffer).writePos_
        + ReadableBytes ⟨[9, 9, 9, 9, 1, 2], 4, 6⟩ + 1 ≤ 6 →
      ∃ b2, AppendSelf ⟨[9, 9, 9, 9, 1, 2], 4, 6⟩ 6 = .ok b2 ∧
        readable b2
          = readable ⟨[9, 9, 9, 9, 1, 2], 4, 6⟩ ++ readable ⟨[9, 9, 9, 9, 1, 2], 4, 6⟩) ∧
    (WritableBytes ⟨[9, 9, 9, 9, 1, 2], 4, 6⟩ < ReadableBytes ⟨[9, 9, 9, 9, 1, 2], 4, 6⟩ →
      ReadableBytes ⟨[9, 9, 9, 9, 1, 2], 4, 6⟩
        ≤ WritableBytes ⟨[9, 9, 9, 9, 1, 2], 4, 6⟩
          + PrependableBytes ⟨[9, 9, 9, 9, 1, 2], 4, 6⟩ →
      ∃ b2, AppendSelf ⟨[9, 9, 9, 9, 1, 2], 4, 6⟩ 6 = .ok b2 ∧
        readable b2 = readable ⟨[9, 9, 9, 9, 1, 2], 4, 6⟩
          ++ ((readable ⟨[9, 9, 9, 9, 1, 2], 4, 6⟩).drop 4
            ++ (readable ⟨[9, 9, 9, 9, 1, 2], 4, 6⟩).drop
              (ReadableBytes ⟨[9, 9, 9, 9, 1, 2], 4, 6⟩ - 4)) ∧
        (ReadableBytes ⟨[9, 9, 9, 9, 1, 2], 4, 6⟩ ≤ 4 →
          readable b2
            = readable ⟨[9, 9, 9, 9, 1, 2], 4, 6⟩ ++ readable ⟨[9, 9, 9, 9, 1, 2], 4, 6⟩))) :=
  ⟨by decide, by decide, by decide, by decide, by decide,
    C15_AppendSelf ⟨[9, 9, 9, 9, 1, 2], 4, 6⟩ 6 (by decide) (by decide) (by decide)⟩

end WebServer
